import Mathlib

/-!
Shallow embedding of the simpledb-rs storage kernel (page codec, log
manager and backwards log iterator, log-record codec, recovery walk,
lock table and concurrency manager, buffer pool, transaction surface,
and record layout), with theorems settling the specification claims.

Machine integers are modelled as `Int`/`Nat` with explicit wrap-around
(`% 2 ^ w`) where the Rust code converts or overflows.  Rust `String`s
are modelled as their byte lists (`List Nat`); the UTF-8 validity check
of `String::from_utf8(..).unwrap()` is not modelled, so `get_string` is
the byte-level `get_bytes`.  Operations that can panic in Rust (slice
indexing out of bounds, `unwrap`) return `Option`, with `none` for the
panic.
-/

/-- Big-endian bytes of a natural number, `w` bytes wide (the value is
taken modulo `2 ^ (8 * w)`, matching Rust `to_be_bytes`). -/
def natToBytesBE : Nat → Nat → List Nat
  | 0, _ => []
  | w + 1, n => natToBytesBE w (n / 256) ++ [n % 256]

/-- Big-endian decoding of a byte list to a natural number. -/
def bytesToNatBE (l : List Nat) : Nat :=
  l.foldl (fun a b => a * 256 + b) 0

/-- Encode a signed integer as `w` big-endian bytes, two's complement
(Rust `iN::to_be_bytes`). -/
def intToBytesBE (w : Nat) (v : Int) : List Nat :=
  natToBytesBE w (v.emod (2 ^ (8 * w))).toNat

/-- Decode `w` big-endian bytes as a two's-complement signed integer
(Rust `iN::from_be_bytes`). -/
def bytesToIntBE (w : Nat) (l : List Nat) : Int :=
  let n := bytesToNatBE l
  if n < 2 ^ (8 * w - 1) then (n : Int) else (n : Int) - 2 ^ (8 * w)

theorem length_natToBytesBE (w n : Nat) : (natToBytesBE w n).length = w := by
  induction w generalizing n with
  | zero => rfl
  | succ w ih => simp [natToBytesBE, ih]

theorem bytesToNatBE_append (l₁ l₂ : List Nat) :
    bytesToNatBE (l₁ ++ l₂) =
      (l₂.foldl (fun a b => a * 256 + b) (bytesToNatBE l₁)) := by
  simp [bytesToNatBE, List.foldl_append]

theorem bytesToNatBE_natToBytesBE (w n : Nat) :
    bytesToNatBE (natToBytesBE w n) = n % 2 ^ (8 * w) := by
  induction w generalizing n with
  | zero => simp [natToBytesBE, bytesToNatBE, Nat.mod_one]
  | succ w ih =>
    have h : bytesToNatBE (natToBytesBE w (n / 256) ++ [n % 256]) =
        (bytesToNatBE (natToBytesBE w (n / 256))) * 256 + n % 256 := by
      simp [bytesToNatBE_append, bytesToNatBE]
    have hpow : 2 ^ (8 * (w + 1)) = 256 * 2 ^ (8 * w) := by
      rw [Nat.mul_succ, pow_add]; ring
    rw [natToBytesBE, h, ih, hpow, Nat.mod_mul]
    omega

theorem bytesToIntBE_intToBytesBE (w : Nat) (v : Int) (hw : 0 < w)
    (h1 : -(2 ^ (8 * w - 1)) ≤ v) (h2 : v < 2 ^ (8 * w - 1)) :
    bytesToIntBE w (intToBytesBE w v) = v := by
  have hk : 8 * w = (8 * w - 1) + 1 := by omega
  have hpowZ : (2 : Int) ^ (8 * w) = 2 * 2 ^ (8 * w - 1) := by
    conv_lhs => rw [hk]
    ring
  have hcastk : ((2 ^ (8 * w - 1) : Nat) : Int) = 2 ^ (8 * w - 1) := by push_cast; rfl
  have hcastM : ((2 ^ (8 * w) : Nat) : Int) = 2 ^ (8 * w) := by push_cast; rfl
  have hMpos : (0 : Int) < 2 ^ (8 * w) := by positivity
  have hemod_lt : v.emod (2 ^ (8 * w)) < 2 ^ (8 * w) := Int.emod_lt_of_pos _ hMpos
  have hemod_nonneg : 0 ≤ v.emod (2 ^ (8 * w)) := Int.emod_nonneg _ (by positivity)
  have hlt : (v.emod (2 ^ (8 * w))).toNat < 2 ^ (8 * w) := by omega
  rw [bytesToIntBE, intToBytesBE, bytesToNatBE_natToBytesBE, Nat.mod_eq_of_lt hlt]
  rcases le_or_lt 0 v with hv | hv
  · have hveq : v.emod (2 ^ (8 * w)) = v := Int.emod_eq_of_lt hv (by omega)
    simp only [hveq]
    have hcond : v.toNat < 2 ^ (8 * w - 1) := by omega
    rw [if_pos hcond]
    omega
  · have hveq : v.emod (2 ^ (8 * w)) = v + 2 ^ (8 * w) := by
      have h' : (v + 2 ^ (8 * w) * 1).emod (2 ^ (8 * w)) = v.emod (2 ^ (8 * w)) :=
        Int.add_mul_emod_self_left v (2 ^ (8 * w)) 1
      rw [mul_one] at h'
      rw [← h']
      exact Int.emod_eq_of_lt (by omega) (by omega)
    simp only [hveq]
    have hcond : ¬ ((v + 2 ^ (8 * w)).toNat < 2 ^ (8 * w - 1)) := by omega
    rw [if_neg hcond]
    omega

/-! ## Page (src/page.rs)

A `Page` is its byte buffer, a `List Nat`.  Each accessor mirrors the
Rust method; `none` models a panic (out-of-bounds slice or `unwrap`). -/

/-- Rust `Page::get_byte`: `bytebuffer.get(offset).copied()`. -/
def page_get_byte (p : List Nat) (o : Nat) : Option Nat :=
  p[o]?

/-- Rust `Page::set_byte`: `bytebuffer[offset] = value` (panics when out
of bounds); the stored value is a `u8`, so it is taken mod 256. -/
def page_set_byte (p : List Nat) (o : Nat) (v : Nat) : Option (List Nat) :=
  if o < p.length then some (p.set o (v % 256)) else none

/-- Rust `Page::get_bytes`: reads the single length byte at `offset`
(via `get_byte(offset).unwrap()`), then returns the `len` bytes starting
at `offset + 4`. -/
def page_get_bytes (p : List Nat) (o : Nat) : Option (List Nat) :=
  p[o]?.bind fun len =>
    if o + 4 + len ≤ p.length then some ((p.drop (o + 4)).take len) else none

/-- Rust `Page::set_bytes`: stores `value.len() as u8` (the low 8 bits
of the length) at `offset`, then the raw bytes at `offset + 4 ..`. -/
def page_set_bytes (p : List Nat) (o : Nat) (v : List Nat) : Option (List Nat) :=
  (page_set_byte p o v.length).bind fun p1 =>
    if o + 4 + v.length ≤ p1.length then
      some (p1.take (o + 4) ++ v ++ p1.drop (o + 4 + v.length))
    else none

/-- Rust `Page::get_int`: 4 big-endian bytes at `offset` as an `i32`. -/
def page_get_int (p : List Nat) (o : Nat) : Option Int :=
  if o + 4 ≤ p.length then some (bytesToIntBE 4 ((p.drop o).take 4)) else none

/-- Rust `Page::set_int`: writes the 4 big-endian bytes of the `i32`. -/
def page_set_int (p : List Nat) (o : Nat) (v : Int) : Option (List Nat) :=
  if o + 4 ≤ p.length then some (p.take o ++ intToBytesBE 4 v ++ p.drop (o + 4)) else none

/-- Rust `Page::get_long`: 8 big-endian bytes at `offset` as an `i64`. -/
def page_get_long (p : List Nat) (o : Nat) : Option Int :=
  if o + 8 ≤ p.length then some (bytesToIntBE 8 ((p.drop o).take 8)) else none

/-- Rust `Page::set_long`: writes the 8 big-endian bytes of the `i64`. -/
def page_set_long (p : List Nat) (o : Nat) (v : Int) : Option (List Nat) :=
  if o + 8 ≤ p.length then some (p.take o ++ intToBytesBE 8 v ++ p.drop (o + 8)) else none

/-- Rust `Page::get_string`: `get_bytes` then `String::from_utf8`;
strings are modelled as byte lists, so this is `get_bytes`. -/
def page_get_string (p : List Nat) (o : Nat) : Option (List Nat) :=
  page_get_bytes p o

/-- Rust `Page::set_string`: `set_bytes` on the UTF-8 bytes. -/
def page_set_string (p : List Nat) (o : Nat) (v : List Nat) : Option (List Nat) :=
  page_set_bytes p o v

/-- Rust `Page::set_bool`: one byte, `value as u8`. -/
def page_set_bool (p : List Nat) (o : Nat) (v : Bool) : Option (List Nat) :=
  page_set_byte p o (if v then 1 else 0)

/-- Rust `Page::get_bool`: `get_byte(offset).unwrap() != 0`. -/
def page_get_bool (p : List Nat) (o : Nat) : Option Bool :=
  (page_get_byte p o).map (fun b => decide (b ≠ 0))

/-- Rust `Page::max_length`: `4 + strlen * max_bytes_per_char` with
`max_bytes_per_char = 1`. -/
def pageMaxLength (strlen : Nat) : Nat :=
  4 + strlen * 1

/-! ## Splice lemmas

`spliceAt p o mid k` is the result of overwriting `k` bytes of `p` at
offset `o` with `mid`; all page writers reduce to this shape. -/

theorem splice_length (p mid : List Nat) (o k : Nat) (hm : mid.length = k)
    (ho : o + k ≤ p.length) :
    (p.take o ++ mid ++ p.drop (o + k)).length = p.length := by
  simp [List.length_append, List.length_take, List.length_drop, hm]
  omega

theorem splice_drop_mid (p mid : List Nat) (o k : Nat) (ho : o ≤ p.length) :
    (p.take o ++ mid ++ p.drop (o + k)).drop o = mid ++ p.drop (o + k) := by
  rw [List.append_assoc]
  exact List.drop_left' (by simp [List.length_take]; omega)

theorem splice_read (p mid : List Nat) (o k : Nat) (hm : mid.length = k)
    (ho : o ≤ p.length) :
    ((p.take o ++ mid ++ p.drop (o + k)).drop o).take k = mid := by
  rw [splice_drop_mid p mid o k ho]
  exact List.take_left' hm

theorem splice_drop_end (p mid : List Nat) (o k : Nat) (hm : mid.length = k)
    (ho : o + k ≤ p.length) :
    (p.take o ++ mid ++ p.drop (o + k)).drop (o + k) = p.drop (o + k) := by
  exact List.drop_left' (by simp [List.length_append, List.length_take, hm]; omega)

theorem splice_take (p mid : List Nat) (o k : Nat) (ho : o ≤ p.length) :
    (p.take o ++ mid ++ p.drop (o + k)).take o = p.take o := by
  rw [List.append_assoc]
  exact List.take_left' (by simp [List.length_take]; omega)

theorem splice_getElem_lt (p mid : List Nat) (o k i : Nat) (ho : o ≤ p.length)
    (hi : i < o) :
    (p.take o ++ mid ++ p.drop (o + k))[i]? = p[i]? := by
  rw [List.append_assoc]
  rw [List.getElem?_append_left (by simp [List.length_take]; omega)]
  rw [List.getElem?_take]
  simp [hi]

theorem splice_getElem_ge (p mid : List Nat) (o k i : Nat) (hm : mid.length = k)
    (ho : o + k ≤ p.length) (hi : o + k ≤ i) :
    (p.take o ++ mid ++ p.drop (o + k))[i]? = p[i]? := by
  have h1 := congrArg (fun l => l[i - (o + k)]?)
    (splice_drop_end p mid o k hm ho)
  simp only [List.getElem?_drop] at h1
  have : o + k + (i - (o + k)) = i := by omega
  rwa [this] at h1

theorem splice_getElem_mid (p mid : List Nat) (o k i : Nat) (hm : mid.length = k)
    (ho : o + k ≤ p.length) (hi1 : o ≤ i) (hi2 : i < o + k) :
    (p.take o ++ mid ++ p.drop (o + k))[i]? = mid[i - o]? := by
  have h1 := congrArg (fun l => l[i - o]?) (splice_drop_mid p mid o k (by omega))
  simp only [List.getElem?_drop] at h1
  have : o + (i - o) = i := by omega
  rw [this] at h1
  rw [h1, List.getElem?_append_left (by omega)]

/-! ## Page round-trip and locality lemmas -/

theorem length_intToBytesBE (w : Nat) (v : Int) : (intToBytesBE w v).length = w := by
  simp [intToBytesBE, length_natToBytesBE]

theorem page_set_int_eq (p : List Nat) (o : Nat) (v : Int) (h : o + 4 ≤ p.length) :
    page_set_int p o v = some (p.take o ++ intToBytesBE 4 v ++ p.drop (o + 4)) := by
  simp [page_set_int, h]

theorem page_set_int_length (p q : List Nat) (o : Nat) (v : Int)
    (h : page_set_int p o v = some q) : q.length = p.length := by
  by_cases hb : o + 4 ≤ p.length
  · rw [page_set_int_eq p o v hb] at h
    cases h
    exact splice_length p _ o 4 (length_intToBytesBE 4 v) hb
  · simp [page_set_int, hb] at h

theorem page_get_int_spliced (p : List Nat) (o : Nat) (v : Int)
    (h : o + 4 ≤ p.length) (h1 : -(2 ^ 31) ≤ v) (h2 : v < 2 ^ 31) :
    page_get_int (p.take o ++ intToBytesBE 4 v ++ p.drop (o + 4)) o = some v := by
  have hlen : (p.take o ++ intToBytesBE 4 v ++ p.drop (o + 4)).length = p.length :=
    splice_length p _ o 4 (length_intToBytesBE 4 v) h
  rw [page_get_int, if_pos (by rw [hlen]; exact h)]
  rw [splice_read p _ o 4 (length_intToBytesBE 4 v) (by omega)]
  rw [bytesToIntBE_intToBytesBE 4 v (by norm_num) (by norm_num; exact h1) (by norm_num; exact h2)]

theorem page_get_int_set_int (p : List Nat) (o : Nat) (v : Int)
    (h : o + 4 ≤ p.length) (h1 : -(2 ^ 31) ≤ v) (h2 : v < 2 ^ 31) :
    (page_set_int p o v).bind (fun q => page_get_int q o) = some v := by
  rw [page_set_int_eq p o v h]
  exact page_get_int_spliced p o v h h1 h2

theorem page_set_long_eq (p : List Nat) (o : Nat) (v : Int) (h : o + 8 ≤ p.length) :
    page_set_long p o v = some (p.take o ++ intToBytesBE 8 v ++ p.drop (o + 8)) := by
  simp [page_set_long, h]

theorem page_get_long_set_long (p : List Nat) (o : Nat) (v : Int)
    (h : o + 8 ≤ p.length) (h1 : -(2 ^ 63) ≤ v) (h2 : v < 2 ^ 63) :
    (page_set_long p o v).bind (fun q => page_get_long q o) = some v := by
  rw [page_set_long_eq p o v h]
  show page_get_long (p.take o ++ intToBytesBE 8 v ++ p.drop (o + 8)) o = some v
  have hlen : (p.take o ++ intToBytesBE 8 v ++ p.drop (o + 8)).length = p.length :=
    splice_length p _ o 8 (length_intToBytesBE 8 v) h
  rw [page_get_long, if_pos (by rw [hlen]; exact h)]
  rw [splice_read p _ o 8 (length_intToBytesBE 8 v) (by omega)]
  rw [bytesToIntBE_intToBytesBE 8 v (by norm_num) (by norm_num; exact h1) (by norm_num; exact h2)]

theorem page_set_bytes_eq (p : List Nat) (o : Nat) (v : List Nat)
    (h : o + 4 + v.length ≤ p.length) :
    page_set_bytes p o v =
      some ((p.set o (v.length % 256)).take (o + 4) ++ v ++
        (p.set o (v.length % 256)).drop (o + 4 + v.length)) := by
  have ho : o < p.length := by omega
  simp [page_set_bytes, page_set_byte, ho, List.length_set, h]

theorem page_set_bytes_length (p q : List Nat) (o : Nat) (v : List Nat)
    (hq : page_set_bytes p o v = some q) : q.length = p.length := by
  rcases Nat.lt_or_ge o p.length with ho | ho
  · by_cases h : o + 4 + v.length ≤ p.length
    · rw [page_set_bytes_eq p o v h] at hq
      cases hq
      have := splice_length (p.set o (v.length % 256)) v (o + 4) v.length rfl
        (by simp [List.length_set]; omega)
      simp [List.length_set] at this ⊢
      omega
    · simp [page_set_bytes, page_set_byte, ho, List.length_set, h] at hq
  · simp [page_set_bytes, page_set_byte, Nat.not_lt_of_ge ho] at hq

theorem page_get_bytes_set_bytes (p : List Nat) (o : Nat) (v : List Nat)
    (h : o + 4 + v.length ≤ p.length) (hv : v.length < 256) :
    (page_set_bytes p o v).bind (fun q => page_get_bytes q o) = some v := by
  rw [page_set_bytes_eq p o v h]
  show page_get_bytes _ o = some v
  set p1 := p.set o (v.length % 256) with hp1
  have hp1len : p1.length = p.length := by simp [hp1, List.length_set]
  have hqlen : (p1.take (o + 4) ++ v ++ p1.drop (o + 4 + v.length)).length = p.length := by
    rw [splice_length p1 v (o + 4) v.length rfl (by omega)]
    exact hp1len
  rw [page_get_bytes]
  have hgo : (p1.take (o + 4) ++ v ++ p1.drop (o + 4 + v.length))[o]? = some (v.length % 256) := by
    rw [splice_getElem_lt p1 v (o + 4) v.length o (by omega) (by omega)]
    exact List.getElem?_set_self (by omega)
  rw [hgo, Option.some_bind, Nat.mod_eq_of_lt hv]
  rw [if_pos (by rw [hqlen]; exact h)]
  rw [splice_read p1 v (o + 4) v.length rfl (by omega)]

theorem page_get_byte_set_byte (p : List Nat) (o : Nat) (v : Nat)
    (h : o < p.length) :
    (page_set_byte p o v).bind (fun q => page_get_byte q o) = some (v % 256) := by
  simp [page_set_byte, h, page_get_byte]

theorem page_get_bool_set_bool (p : List Nat) (o : Nat) (v : Bool)
    (h : o < p.length) :
    (page_set_bool p o v).bind (fun q => page_get_bool q o) = some v := by
  rw [page_set_bool, page_set_byte, if_pos h]
  show page_get_bool (p.set o ((if v then 1 else 0) % 256)) o = some v
  rw [page_get_bool, page_get_byte]
  rw [List.getElem?_set_self (by simpa using h)]
  cases v <;> simp

/-! ## Log manager (src/log/logmgr.rs) and iterator (src/log/logiterator.rs)

The log file is the only file these components touch, so the file
manager is modelled by the list of that file's blocks (`disk`).
`FileMgr::append` appends a zero block; `FileMgr::write` overwrites a
block in place.  LSNs are `i32`; they are modelled as unbounded `Int`
(claims about the log carry a bound on the number of appends). -/

structure LogMgr where
  blockSize : Nat
  disk : List (List Nat)
  page : List Nat
  currentBlock : Nat
  latestLsn : Int
  lastSavedLsn : Int
  deriving DecidableEq

/-- Rust `LogMgr::flush`: `fm.write(current_block, page)` and
`last_saved_lsn = latest_lsn`. -/
def lmFlush (s : LogMgr) : LogMgr :=
  { s with disk := s.disk.set s.currentBlock s.page, lastSavedLsn := s.latestLsn }

/-- Rust `LogMgr::flush_record(lsn)`: flush when `lsn >= last_saved_lsn`. -/
def lmFlushRecord (s : LogMgr) (lsn : Int) : LogMgr :=
  if lsn ≥ s.lastSavedLsn then lmFlush s else s

/-- Rust `LogMgr::append_new_block`: `fm.append` (a zero block at index
`disk.length`), then `page.set_int(0, block_size as i32)` and
`fm.write(block, page)`; the caller stores the returned block id into
`current_block`, which is folded in here. -/
def lmAppendNewBlock (s : LogMgr) : Option LogMgr :=
  let disk1 := s.disk ++ [List.replicate s.blockSize 0]
  let idx := s.disk.length
  (page_set_int s.page 0 (s.blockSize : Int)).map fun pg =>
    { s with page := pg, disk := disk1.set idx pg, currentBlock := idx }

/-- Rust `LogMgr::append(record)`: read the boundary, move to a fresh
block when `boundary - (len + 4) < 4`, write the length-prefixed record
at `boundary - (len + 4)`, store the new boundary, bump the LSN.  A
negative record position is the `as usize` cast of a negative `i32`,
whose huge value makes the slice write panic (`none`). -/
def lmAppend (s : LogMgr) (rec : List Nat) : Option LogMgr :=
  (page_get_int s.page 0).bind fun b0 =>
  let need : Int := (rec.length : Int) + 4
  (if b0 - need < 4 then
      (lmAppendNewBlock (lmFlush s)).bind fun s1 =>
        (page_get_int s1.page 0).map fun b1 => (s1, b1)
    else some (s, b0)).bind fun sb =>
  let recPos : Int := sb.2 - need
  if recPos < 0 then none
  else
    (page_set_bytes sb.1.page recPos.toNat rec).bind fun pg1 =>
    (page_set_int pg1 0 recPos).map fun pg2 =>
      { sb.1 with page := pg2, latestLsn := sb.1.latestLsn + 1 }

/-- Rust `LogMgr::new` on an empty log file: `fm.append` creates block
0, the boundary is set to `block_size` and the block is persisted. -/
def lmNew (bs : Nat) : Option LogMgr :=
  (page_set_int (List.replicate bs 0) 0 (bs : Int)).map fun pg =>
    { blockSize := bs, disk := [pg], page := pg, currentBlock := 0,
      latestLsn := 0, lastSavedLsn := 0 }

/-- State of a Rust `LogIterator`: current block number, page buffer,
`currentpos` and `boundary` (both non-negative `i32`s in reachable
states, held as `Nat`). -/
structure LogIter where
  blk : Nat
  page : List Nat
  currentpos : Nat
  boundary : Nat
  deriving DecidableEq

/-- Rust `LogIterator::move_to_block`: `fm.read(block, page)` (reading a
block past the end of the file is a short read that leaves the buffer
`buf` unchanged), then `boundary = page.get_int(0)` and `currentpos =
boundary`.  A negative boundary would make every later `as usize` cast
of `currentpos` panic, hence `none`. -/
def iterMoveTo (disk : List (List Nat)) (blkNum : Nat) (buf : List Nat) : Option LogIter :=
  let page := disk.getD blkNum buf
  (page_get_int page 0).bind fun b =>
    if b < 0 then none else some ⟨blkNum, page, b.toNat, b.toNat⟩

/-- Rust `LogIterator::next`: `some none` is iterator exhaustion
(`None`), outer `none` is a panic inside the call. -/
def iterNext (bs : Nat) (disk : List (List Nat)) (it : LogIter) :
    Option (Option (List Nat × LogIter)) :=
  if bs ≤ it.currentpos ∧ it.blk = 0 then some none
  else
    (if it.currentpos = bs then iterMoveTo disk (it.blk - 1) it.page else some it).bind
      fun it1 =>
        (page_get_bytes it1.page it1.currentpos).bind fun r =>
          some (some (r, { it1 with currentpos := it1.currentpos + 4 + r.length }))

/-- Drain the iterator, newest record first.  `fuel` bounds the number
of `next` calls; the chosen fuel is proved sufficient for every state
the log manager can reach. -/
def iterCollect (bs : Nat) (disk : List (List Nat)) : Nat → LogIter → Option (List (List Nat))
  | 0, _ => none
  | fuel + 1, it =>
    match iterNext bs disk it with
    | none => none
    | some none => some []
    | some (some (r, it1)) => (iterCollect bs disk fuel it1).map (r :: ·)

/-- Rust `LogMgr::iterator()` followed by draining the iterator: flush
the tail, position at the current block's boundary (the iterator's page
buffer starts as `vec![0; block_size]`), and read every record. -/
def lmIterateAll (s : LogMgr) : Option (List (List Nat)) :=
  let s1 := lmFlush s
  (iterMoveTo s1.disk s1.currentBlock (List.replicate s1.blockSize 0)).bind fun it =>
    iterCollect s1.blockSize s1.disk (s1.disk.length * s1.blockSize + 1) it

/-- A fresh log manager on an empty log file, followed by the given
sequence of `append` calls. -/
def logRun (bs : Nat) (rs : List (List Nat)) : Option LogMgr :=
  (lmNew bs).bind fun s => rs.foldlM lmAppend s

/-- The records yielded by a backwards iteration after appending `rs`
to a fresh log. -/
def logRunIterate (bs : Nat) (rs : List (List Nat)) : Option (List (List Nat)) :=
  (logRun bs rs).bind lmIterateAll

/-! ## The record chain of a log block

`Chain pg pos rs` says: starting at byte `pos` of page `pg` and walking
right, the length-prefixed records `rs` are laid out one after another,
ending exactly at the end of the page.  This is the shape `LogMgr` keeps
every block in, and the shape the iterator consumes. -/

inductive Chain (pg : List Nat) : Nat → List (List Nat) → Prop
  | nil (pos : Nat) (h : pos = pg.length) : Chain pg pos []
  | cons (pos : Nat) (r : List Nat) (rs : List (List Nat))
      (hlen : pg[pos]? = some r.length)
      (hbound : pos + 4 + r.length ≤ pg.length)
      (hslice : (pg.drop (pos + 4)).take r.length = r)
      (htail : Chain pg (pos + 4 + r.length) rs) : Chain pg pos (r :: rs)

theorem chain_pos_le (pg : List Nat) (pos : Nat) (rs : List (List Nat))
    (h : Chain pg pos rs) : pos ≤ pg.length := by
  cases h with
  | nil h => omega
  | cons r rs hlen hbound hslice htail => omega

theorem chain_four_mul (pg : List Nat) (pos : Nat) (rs : List (List Nat))
    (h : Chain pg pos rs) : 4 * rs.length + pos ≤ pg.length := by
  induction h with
  | nil pos h => simp; omega
  | cons pos r rs hlen hbound hslice htail ih => simp at ih ⊢; omega

theorem chain_count_le (pg : List Nat) (pos : Nat) (rs : List (List Nat))
    (h : Chain pg pos rs) : rs.length ≤ pg.length := by
  have := chain_four_mul pg pos rs h
  omega

theorem drop_eq_of_drop_eq (l₁ l₂ : List Nat) (i j : Nat)
    (h : l₂.drop i = l₁.drop i) (hij : i ≤ j) : l₂.drop j = l₁.drop j := by
  have h2 := congrArg (List.drop (j - i)) h
  rw [List.drop_drop, List.drop_drop] at h2
  have : i + (j - i) = j := by omega
  rwa [this] at h2

theorem getElem_eq_of_drop_eq (l₁ l₂ : List Nat) (i j : Nat)
    (h : l₂.drop i = l₁.drop i) (hij : i ≤ j) : l₂[j]? = l₁[j]? := by
  have h2 := congrArg (fun l => l[j - i]?) h
  simp only [List.getElem?_drop] at h2
  have : i + (j - i) = j := by omega
  rwa [this] at h2

theorem chain_congr (pg pg2 : List Nat) (pos : Nat) (rs : List (List Nat))
    (hl2 : pg.length = pg2.length)
    (h : Chain pg pos rs) : pg2.drop pos = pg.drop pos → Chain pg2 pos rs := by
  induction h with
  | nil pos h =>
    intro hdrop
    exact Chain.nil pos (by omega)
  | cons pos r rs hl hb hs ht ih =>
    intro hdrop
    refine Chain.cons pos r rs ?_ (by omega) ?_ ?_
    · rw [getElem_eq_of_drop_eq pg pg2 pos pos hdrop (le_refl pos)]
      exact hl
    · rw [drop_eq_of_drop_eq pg pg2 pos (pos + 4) hdrop (by omega)]
      exact hs
    · exact ih (drop_eq_of_drop_eq pg pg2 pos (pos + 4 + r.length) hdrop (by omega))

theorem chain_get_bytes (pg : List Nat) (pos : Nat) (r : List Nat) (rs : List (List Nat))
    (h : Chain pg pos (r :: rs)) : page_get_bytes pg pos = some r := by
  cases h with
  | cons pos r rs hl hb hs ht =>
    rw [page_get_bytes, hl, Option.some_bind, if_pos hb, hs]

theorem drop_set_of_lt (l : List Nat) (i j : Nat) (a : Nat) (h : i < j) :
    (l.set i a).drop j = l.drop j := by
  apply List.ext_getElem?
  intro m
  simp only [List.getElem?_drop]
  exact List.getElem?_set_ne (by omega)

theorem set_append_len {α : Type} (l : List α) (a b : α) :
    (l ++ [a]).set l.length b = l ++ [b] := by
  induction l with
  | nil => rfl
  | cons x xs ih => simp [List.set, ih]

/-- Writing a length-prefixed record at `boundary - (len + 4)` and
storing the new boundary extends the block's record chain by that
record.  This is the write step shared by both branches of
`LogMgr::append`. -/
theorem chain_extend (page : List Nat) (bs bnd : Nat) (rec : List Nat)
    (tailRs : List (List Nat))
    (hplen : page.length = bs)
    (hbs31 : (bs : Int) < 2 ^ 31)
    (hchain : Chain page bnd tailRs)
    (hlt : rec.length < 256)
    (hfits : rec.length + 8 ≤ bnd) :
    ∃ pg1 pg2,
      page_set_bytes page (bnd - (rec.length + 4)) rec = some pg1 ∧
      page_set_int pg1 0 ((bnd - (rec.length + 4) : Nat) : Int) = some pg2 ∧
      pg2.length = bs ∧
      page_get_int pg2 0 = some ((bnd - (rec.length + 4) : Nat) : Int) ∧
      Chain pg2 (bnd - (rec.length + 4)) (rec :: tailRs) := by
  have hbnd : bnd ≤ bs := by
    have := chain_pos_le page bnd tailRs hchain
    omega
  set len := rec.length with hlendef
  set posN := bnd - (len + 4) with hposN
  have h4 : 4 ≤ posN := by omega
  have hsum : posN + 4 + len = bnd := by omega
  have hsb : posN + 4 + len ≤ page.length := by omega
  have hpg1 := page_set_bytes_eq page posN rec hsb
  set p1 := page.set posN (len % 256) with hp1
  have hp1len : p1.length = page.length := by simp [hp1]
  set pg1 := p1.take (posN + 4) ++ rec ++ p1.drop (posN + 4 + len) with hpg1def
  have hpg1len : pg1.length = bs := by
    rw [hpg1def, splice_length p1 rec (posN + 4) len rfl (by omega)]
    omega
  have hpg2some := page_set_int_eq pg1 0 ((posN : Nat) : Int) (by omega)
  set pg2 := pg1.take 0 ++ intToBytesBE 4 ((posN : Nat) : Int) ++ pg1.drop (0 + 4)
    with hpg2def
  have hpg2len : pg2.length = bs := by
    rw [hpg2def, splice_length pg1 _ 0 4 (length_intToBytesBE 4 _) (by omega)]
    exact hpg1len
  have hcast0 : -(2 ^ 31) ≤ ((posN : Nat) : Int) := by
    have := Int.natCast_nonneg posN
    omega
  have hcast1 : ((posN : Nat) : Int) < 2 ^ 31 := by omega
  have hget : page_get_int pg2 0 = some ((posN : Nat) : Int) := by
    rw [hpg2def]
    exact page_get_int_spliced pg1 0 _ (by omega) hcast0 hcast1
  have d1 : pg2.drop (0 + 4) = pg1.drop (0 + 4) :=
    splice_drop_end pg1 _ 0 4 (length_intToBytesBE 4 _) (by omega)
  refine ⟨pg1, pg2, hpg1, hpg2some, hpg2len, hget, ?_⟩
  refine Chain.cons posN rec tailRs ?_ (by omega) ?_ ?_
  · have e1 : pg2[posN]? = pg1[posN]? :=
      splice_getElem_ge pg1 _ 0 4 posN (length_intToBytesBE 4 _) (by omega) (by omega)
    have e2 : pg1[posN]? = p1[posN]? :=
      splice_getElem_lt p1 rec (posN + 4) len posN (by omega) (by omega)
    have e3 : p1[posN]? = some (len % 256) := List.getElem?_set_self (by omega)
    rw [e1, e2, e3, Nat.mod_eq_of_lt hlt]
  · have d2 : pg2.drop (posN + 4) = pg1.drop (posN + 4) :=
      drop_eq_of_drop_eq pg1 pg2 (0 + 4) (posN + 4) d1 (by omega)
    rw [d2]
    exact splice_read p1 rec (posN + 4) len rfl (by omega)
  · have d2 : pg2.drop bnd = pg1.drop bnd :=
      drop_eq_of_drop_eq pg1 pg2 (0 + 4) bnd d1 (by omega)
    have d3 : pg1.drop (posN + 4 + len) = p1.drop (posN + 4 + len) :=
      splice_drop_end p1 rec (posN + 4) len rfl (by omega)
    rw [hsum] at d3
    have d4 : p1.drop bnd = page.drop bnd :=
      drop_set_of_lt page posN bnd (len % 256) (by omega)
    rw [hsum]
    exact chain_congr page pg2 bnd tailRs (by omega) hchain (d2.trans (d3.trans d4))

/-- `LowerOk bs disk j lows` : blocks `j - 1, j - 2, …, 0` of the log
file each hold a non-empty, boundary-anchored record chain, with
`lows` listing their records newest-block-first. -/
def LowerOk (bs : Nat) (disk : List (List Nat)) : Nat → List (List (List Nat)) → Prop
  | 0, l => l = []
  | j + 1, l =>
      ∃ rsJ rest bnd, l = rsJ :: rest ∧ rsJ ≠ [] ∧
        (disk.getD j []).length = bs ∧
        page_get_int (disk.getD j []) 0 = some ((bnd : Nat) : Int) ∧
        Chain (disk.getD j []) bnd rsJ ∧
        LowerOk bs disk j rest

theorem lowerOk_congr (bs : Nat) (disk disk2 : List (List Nat)) (j : Nat)
    (l : List (List (List Nat)))
    (hsame : ∀ i, i < j → disk2.getD i [] = disk.getD i [])
    (h : LowerOk bs disk j l) : LowerOk bs disk2 j l := by
  induction j generalizing l with
  | zero => exact h
  | succ j ih =>
    obtain ⟨rsJ, rest, bnd, hl, hne, hlen, hget, hchain, hrest⟩ := h
    refine ⟨rsJ, rest, bnd, hl, hne, ?_, ?_, ?_, ?_⟩
    · rw [hsame j (by omega)]; exact hlen
    · rw [hsame j (by omega)]; exact hget
    · rw [hsame j (by omega)]; exact hchain
    · exact ih rest (fun i hi => hsame i (by omega)) hrest

theorem lowerOk_sum (bs : Nat) (disk : List (List Nat)) (j : Nat)
    (l : List (List (List Nat)))
    (h : LowerOk bs disk j l) : (l.map List.length).sum ≤ j * bs := by
  induction j generalizing l with
  | zero => subst h; simp
  | succ j ih =>
    obtain ⟨rsJ, rest, bnd, hl, hne, hlen, hget, hchain, hrest⟩ := h
    subst hl
    have h1 : rsJ.length ≤ bs := by
      have := chain_count_le _ _ _ hchain
      omega
    have h2 := ih rest hrest
    simp only [List.map_cons, List.sum_cons]
    have : (j + 1) * bs = j * bs + bs := by ring
    omega

/-- Well-formedness of a reachable `LogMgr` state after the record
sequence `rs` has been appended: the in-memory tail page carries the
newest records, lower blocks carry the rest, and together they hold
exactly `rs` newest-first. -/
def LmWf (s : LogMgr) (rs : List (List Nat)) : Prop :=
  4 ≤ s.blockSize ∧ (s.blockSize : Int) < 2 ^ 31 ∧
  s.disk.length = s.currentBlock + 1 ∧
  s.page.length = s.blockSize ∧
  ∃ tailRs lows bnd,
    4 ≤ bnd ∧
    page_get_int s.page 0 = some ((bnd : Nat) : Int) ∧
    Chain s.page bnd tailRs ∧
    LowerOk s.blockSize s.disk s.currentBlock lows ∧
    tailRs ++ lows.flatten = rs.reverse

theorem lmNew_wf (bs : Nat) (h4 : 4 ≤ bs) (h31 : (bs : Int) < 2 ^ 31) :
    ∃ s, lmNew bs = some s ∧ LmWf s [] ∧ s.blockSize = bs := by
  have hrep : (List.replicate bs (0 : Nat)).length = bs := by simp
  have hset := page_set_int_eq (List.replicate bs 0) 0 (bs : Int) (by omega)
  set pg := (List.replicate bs (0 : Nat)).take 0 ++ intToBytesBE 4 (bs : Int) ++
    (List.replicate bs (0 : Nat)).drop (0 + 4) with hpg
  have hpglen : pg.length = bs := by
    rw [hpg, splice_length _ _ 0 4 (length_intToBytesBE 4 _) (by omega)]
    exact hrep
  have hget : page_get_int pg 0 = some ((bs : Nat) : Int) := by
    rw [hpg]
    exact page_get_int_spliced _ 0 _ (by omega) (by omega) (by omega)
  set s0 : LogMgr :=
    { blockSize := bs, disk := [pg], page := pg, currentBlock := 0,
      latestLsn := 0, lastSavedLsn := 0 } with hs0
  refine ⟨s0, ?_, ?_, rfl⟩
  · rw [lmNew, hset]
    rfl
  · exact ⟨h4, h31, by simp [hs0], hpglen, [], [], bs, h4, hget,
      Chain.nil bs hpglen.symm, by simp [hs0, LowerOk], by simp⟩

theorem lmAppend_wf (s : LogMgr) (rs : List (List Nat)) (rec : List Nat)
    (hwf : LmWf s rs) (hlt : rec.length < 256)
    (hle : (rec.length : Int) ≤ (s.blockSize : Int) - 8) :
    ∃ s', lmAppend s rec = some s' ∧ LmWf s' (rs ++ [rec]) ∧
      s'.blockSize = s.blockSize := by
  obtain ⟨h4, h31, hdlen, hplen, tailRs, lows, bnd, hbnd4, hget, hchain, hlow, hjoin⟩ := hwf
  have hbndle : bnd ≤ s.blockSize := by
    have := chain_pos_le _ _ _ hchain
    omega
  have hrecbs : rec.length + 8 ≤ s.blockSize := by omega
  by_cases hc : ((bnd : Nat) : Int) - ((rec.length : Int) + 4) < 4
  · -- the record does not fit: flush, move to a new block, then write
    have hnofit : bnd < rec.length + 8 := by omega
    set disk2 := s.disk.set s.currentBlock s.page with hdisk2
    have hlen2 : disk2.length = s.currentBlock + 1 := by
      rw [hdisk2, List.length_set]
      exact hdlen
    have hsetB := page_set_int_eq s.page 0 ((s.blockSize : Nat) : Int) (by omega)
    set pgB := s.page.take 0 ++ intToBytesBE 4 ((s.blockSize : Nat) : Int) ++
      s.page.drop (0 + 4) with hpgB
    have hpgBlen : pgB.length = s.blockSize := by
      rw [hpgB, splice_length _ _ 0 4 (length_intToBytesBE 4 _) (by omega)]
      exact hplen
    have hgetB : page_get_int pgB 0 = some ((s.blockSize : Nat) : Int) := by
      rw [hpgB]
      exact page_get_int_spliced _ 0 _ (by omega) (by omega) (by omega)
    obtain ⟨pg1, pg2, hpg1, hpg2, hpg2len, hget2, hchain2⟩ :=
      chain_extend pgB s.blockSize s.blockSize rec [] hpgBlen h31
        (Chain.nil s.blockSize hpgBlen.symm) hlt hrecbs
    have hdisk3 : (disk2 ++ [List.replicate s.blockSize 0]).set disk2.length pgB =
        disk2 ++ [pgB] := set_append_len disk2 _ pgB
    have htnB : (((s.blockSize : Nat) : Int) - ((rec.length : Int) + 4)).toNat =
        s.blockSize - (rec.length + 4) := by omega
    have hinB : ((s.blockSize - (rec.length + 4) : Nat) : Int) =
        ((s.blockSize : Nat) : Int) - ((rec.length : Int) + 4) := by omega
    have hne : tailRs ≠ [] := by
      intro he
      subst he
      cases hchain with
      | nil h => omega
    set sNew : LogMgr :=
      { blockSize := s.blockSize, disk := disk2 ++ [pgB], page := pg2,
        currentBlock := disk2.length, latestLsn := s.latestLsn + 1,
        lastSavedLsn := s.latestLsn } with hsNew
    refine ⟨sNew, ?_, ?_, rfl⟩
    · rw [lmAppend, hget]
      simp only [Option.some_bind]
      rw [if_pos hc]
      simp only [lmAppendNewBlock, lmFlush]
      rw [← hdisk2, hsetB]
      simp only [Option.some_bind, Option.map_some']
      rw [hdisk3, hgetB]
      simp only [Option.map_some', Option.some_bind]
      rw [if_neg (by omega : ¬ (((s.blockSize : Nat) : Int) - ((rec.length : Int) + 4) < 0))]
      rw [htnB, hpg1]
      simp only [Option.some_bind]
      rw [← hinB, hpg2]
      rfl
    · refine ⟨h4, h31, by simp [hsNew, hlen2], hpg2len, [rec], tailRs :: lows,
        s.blockSize - (rec.length + 4), by omega, hget2, hchain2, ?_, ?_⟩
      · simp only [hsNew]
        rw [hlen2]
        refine ⟨tailRs, lows, bnd, rfl, hne, ?_, ?_, ?_, ?_⟩
        · have hclt : s.currentBlock < disk2.length := by omega
          rw [List.getD_eq_getElem?_getD, List.getElem?_append_left hclt, hdisk2,
            List.getElem?_set_self (by omega)]
          simp [hplen]
        · have hclt : s.currentBlock < disk2.length := by omega
          rw [List.getD_eq_getElem?_getD, List.getElem?_append_left hclt, hdisk2,
            List.getElem?_set_self (by omega)]
          simpa using hget
        · have hclt : s.currentBlock < disk2.length := by omega
          have hgd : (disk2 ++ [pgB]).getD s.currentBlock [] = s.page := by
            rw [List.getD_eq_getElem?_getD, List.getElem?_append_left hclt, hdisk2,
              List.getElem?_set_self (by omega)]
            rfl
          rw [hgd]
          exact hchain
        · refine lowerOk_congr s.blockSize s.disk _ s.currentBlock lows ?_ hlow
          intro i hi
          rw [List.getD_eq_getElem?_getD,
            List.getElem?_append_left (by omega : i < disk2.length), hdisk2,
            List.getElem?_set_ne (by omega), ← List.getD_eq_getElem?_getD]
      · simp only [List.flatten_cons, List.singleton_append]
        rw [hjoin]
        simp
  · -- the record fits in the current tail block
    have hfits : rec.length + 8 ≤ bnd := by omega
    obtain ⟨pg1, pg2, hpg1, hpg2, hpg2len, hget2, hchain2⟩ :=
      chain_extend s.page s.blockSize bnd rec tailRs hplen h31 hchain hlt hfits
    have htn : (((bnd : Nat) : Int) - ((rec.length : Int) + 4)).toNat =
        bnd - (rec.length + 4) := by omega
    have hin : ((bnd - (rec.length + 4) : Nat) : Int) =
        ((bnd : Nat) : Int) - ((rec.length : Int) + 4) := by omega
    set sNew : LogMgr := { s with page := pg2, latestLsn := s.latestLsn + 1 }
      with hsNew
    refine ⟨sNew, ?_, ?_, rfl⟩
    · rw [lmAppend, hget]
      simp only [Option.some_bind]
      rw [if_neg hc]
      simp only [Option.some_bind]
      rw [if_neg (by omega : ¬ (((bnd : Nat) : Int) - ((rec.length : Int) + 4) < 0))]
      rw [htn, hpg1]
      simp only [Option.some_bind]
      rw [← hin, hpg2]
      rfl
    · refine ⟨h4, h31, hdlen, hpg2len, rec :: tailRs, lows,
        bnd - (rec.length + 4), by omega, hget2, hchain2, hlow, ?_⟩
      rw [List.cons_append, hjoin]
      simp

theorem foldlM_lmAppend_wf (rs : List (List Nat)) :
    ∀ (s : LogMgr) (rs0 : List (List Nat)),
      LmWf s rs0 →
      (∀ r ∈ rs, (r.length : Int) ≤ (s.blockSize : Int) - 8 ∧ r.length < 256) →
      ∃ s', List.foldlM lmAppend s rs = some s' ∧ LmWf s' (rs0 ++ rs) ∧
        s'.blockSize = s.blockSize := by
  induction rs with
  | nil =>
    intro s rs0 h _
    exact ⟨s, rfl, by simpa using h, rfl⟩
  | cons r rs ih =>
    intro s rs0 h hr
    obtain ⟨s1, h1, hwf1, hbs1⟩ :=
      lmAppend_wf s rs0 r h (hr r (List.mem_cons_self r rs)).2
        (hr r (List.mem_cons_self r rs)).1
    obtain ⟨s2, h2, hwf2, hbs2⟩ := ih s1 (rs0 ++ [r]) hwf1
      (fun x hx => by rw [hbs1]; exact hr x (List.mem_cons_of_mem r hx))
    refine ⟨s2, ?_, ?_, by rw [hbs2, hbs1]⟩
    · rw [List.foldlM_cons, h1]
      simpa using h2
    · simpa [List.append_assoc] using hwf2

theorem iterNext_end (bs : Nat) (disk : List (List Nat)) (pg : List Nat)
    (pos bndF : Nat) (h1 : bs ≤ pos) :
    iterNext bs disk ⟨0, pg, pos, bndF⟩ = some none := by
  rw [iterNext]
  dsimp only
  rw [if_pos ⟨h1, rfl⟩]

theorem iterNext_step (bs : Nat) (disk : List (List Nat)) (blk : Nat)
    (pg : List Nat) (pos bndF : Nat) (r : List Nat) (h1 : pos < bs)
    (hgb : page_get_bytes pg pos = some r) :
    iterNext bs disk ⟨blk, pg, pos, bndF⟩ =
      some (some (r, ⟨blk, pg, pos + 4 + r.length, bndF⟩)) := by
  rw [iterNext]
  dsimp only
  rw [if_neg (fun hh => absurd hh.1 (by omega))]
  rw [if_neg (by omega : ¬ pos = bs)]
  simp only [Option.some_bind]
  rw [hgb]
  rfl

theorem iterNext_move (bs : Nat) (disk : List (List Nat)) (i : Nat)
    (pg : List Nat) (pos bndF : Nat) (pg2 : List Nat) (bndJ : Nat) (r0 : List Nat)
    (hpos : pos = bs)
    (hgd : disk.getD i pg = pg2)
    (hget : page_get_int pg2 0 = some ((bndJ : Nat) : Int))
    (hgb : page_get_bytes pg2 bndJ = some r0) :
    iterNext bs disk ⟨i + 1, pg, pos, bndF⟩ =
      some (some (r0, ⟨i, pg2, bndJ + 4 + r0.length, bndJ⟩)) := by
  rw [iterNext]
  dsimp only
  rw [if_neg (fun hh => Nat.succ_ne_zero i hh.2)]
  rw [if_pos hpos, iterMoveTo]
  simp only [Nat.add_sub_cancel]
  rw [hgd, hget]
  simp only [Option.some_bind]
  rw [if_neg (by omega : ¬ ((bndJ : Nat) : Int) < 0)]
  simp only [Option.some_bind, Int.toNat_natCast]
  rw [hgb]
  rfl

theorem iterCollect_chain (bs : Nat) (disk : List (List Nat)) (hbs : 0 < bs) :
    ∀ (j : Nat) (pg : List Nat) (pos bndF : Nat) (rs : List (List Nat))
      (lows : List (List (List Nat))) (fuel : Nat),
      pg.length = bs →
      Chain pg pos rs →
      LowerOk bs disk j lows →
      rs.length + (lows.map List.length).sum + 1 ≤ fuel →
      iterCollect bs disk fuel ⟨j, pg, pos, bndF⟩ = some (rs ++ lows.flatten) := by
  intro j
  induction j with
  | zero =>
    intro pg pos bndF rs lows fuel hlen hch hlow hfuel
    have hlnil : lows = [] := hlow
    subst hlnil
    induction hch generalizing fuel with
    | nil pos h =>
      obtain ⟨f, rfl⟩ : ∃ f, fuel = f + 1 := ⟨fuel - 1, by omega⟩
      rw [iterCollect, iterNext_end bs disk pg pos bndF (by omega)]
      simp
    | cons pos r rs hl hb hs ht ih =>
      obtain ⟨f, rfl⟩ : ∃ f, fuel = f + 1 := ⟨fuel - 1, by omega⟩
      have hgb : page_get_bytes pg pos = some r := by
        rw [page_get_bytes, hl, Option.some_bind, if_pos hb, hs]
      rw [iterCollect, iterNext_step bs disk 0 pg pos bndF r (by omega) hgb]
      have hrec := ih f (by simp only [List.length_cons] at hfuel; omega)
      simp only [hrec]
      simp
  | succ i ihj =>
    intro pg pos bndF rs lows fuel hlen hch hlow hfuel
    induction hch generalizing fuel with
    | nil pos h =>
      obtain ⟨rsJ, rest, bndJ, hl, hneJ, hlenJ, hgetJ, hchJ, hrest⟩ := hlow
      subst hl
      obtain ⟨f, rfl⟩ : ∃ f, fuel = f + 1 := ⟨fuel - 1, by omega⟩
      have hib : i < disk.length := by
        by_contra hge
        have hnone : disk[i]? = none := by
          rw [List.getElem?_eq_none_iff]
          omega
        rw [List.getD_eq_getElem?_getD, hnone] at hlenJ
        simp at hlenJ
        omega
      have hgd : disk.getD i pg = disk.getD i [] := by
        rw [List.getD_eq_getElem?_getD, List.getD_eq_getElem?_getD,
          List.getElem?_eq_getElem hib]
        rfl
      cases rsJ with
      | nil => exact absurd rfl hneJ
      | cons r0 rsJ2 =>
        have hgb : page_get_bytes (disk.getD i []) bndJ = some r0 :=
          chain_get_bytes _ _ _ _ hchJ
        have htail : Chain (disk.getD i []) (bndJ + 4 + r0.length) rsJ2 := by
          cases hchJ with
          | cons pos2 r2 rs2 hl2 hb2 hs2 ht2 => exact ht2
        rw [iterCollect,
          iterNext_move bs disk i pg pos bndF (disk.getD i []) bndJ r0
            (by omega) hgd hgetJ hgb]
        have hrec := ihj (disk.getD i []) (bndJ + 4 + r0.length) bndJ rsJ2 rest f
          hlenJ htail hrest
          (by simp only [List.length_cons, List.map_cons, List.sum_cons] at hfuel ⊢; omega)
        simp only [hrec]
        simp
    | cons pos r rs hl hb hs ht ih =>
      obtain ⟨f, rfl⟩ : ∃ f, fuel = f + 1 := ⟨fuel - 1, by omega⟩
      have hgb : page_get_bytes pg pos = some r := by
        rw [page_get_bytes, hl, Option.some_bind, if_pos hb, hs]
      rw [iterCollect, iterNext_step bs disk (i + 1) pg pos bndF r (by omega) hgb]
      have hrec := ih f (by simp only [List.length_cons] at hfuel; omega)
      simp only [hrec]
      simp

theorem lmIterateAll_wf (s : LogMgr) (rs : List (List Nat)) (hwf : LmWf s rs) :
    lmIterateAll s = some rs.reverse := by
  obtain ⟨h4, h31, hdlen, hplen, tailRs, lows, bnd, hbnd4, hget, hchain, hlow, hjoin⟩ := hwf
  have hclt : s.currentBlock < s.disk.length := by omega
  rw [lmIterateAll]
  dsimp only [lmFlush]
  have hgd : (s.disk.set s.currentBlock s.page).getD s.currentBlock
      (List.replicate s.blockSize 0) = s.page := by
    rw [List.getD_eq_getElem?_getD, List.getElem?_set_self (by omega)]
    rfl
  rw [iterMoveTo]
  simp only [hgd, hget, Option.some_bind]
  rw [if_neg (by omega : ¬ ((bnd : Nat) : Int) < 0)]
  simp only [Option.some_bind, Int.toNat_natCast]
  have hlow1 : LowerOk s.blockSize (s.disk.set s.currentBlock s.page)
      s.currentBlock lows := by
    refine lowerOk_congr s.blockSize s.disk _ s.currentBlock lows ?_ hlow
    intro i hi
    rw [List.getD_eq_getElem?_getD, List.getElem?_set_ne (by omega),
      ← List.getD_eq_getElem?_getD]
  have hc1 := chain_count_le s.page bnd tailRs hchain
  have hc2 := lowerOk_sum s.blockSize _ s.currentBlock lows hlow1
  have hmul : (s.currentBlock + 1) * s.blockSize =
      s.currentBlock * s.blockSize + s.blockSize := by ring
  have hfuel : tailRs.length + (lows.map List.length).sum + 1 ≤
      (s.disk.set s.currentBlock s.page).length * s.blockSize + 1 := by
    simp only [List.length_set]
    rw [hdlen, hmul]
    omega
  rw [iterCollect_chain s.blockSize (s.disk.set s.currentBlock s.page) (by omega)
    s.currentBlock s.page bnd bnd tailRs lows _ hplen hchain hlow1 hfuel]
  rw [hjoin]

/-- CLAIM C3 (amended): for every sequence of records appended via
`LogMgr::append` to a fresh log, each of length at most `block_size - 8`
and — as the one-byte length prefix of `Page::set_bytes` forces — of
length below 256, with a block size of at least 8 bytes that fits an
`i32` boundary, a backwards iteration obtained from `LogMgr::iterator`
yields exactly the appended records, each encountered exactly once, in
reverse order of their assigned LSNs. -/
theorem log_append_iterate_roundtrip (bs : Nat) (rs : List (List Nat))
    (h4 : 4 ≤ bs) (h31 : (bs : Int) < 2 ^ 31)
    (hrec : ∀ r ∈ rs, (r.length : Int) ≤ (bs : Int) - 8 ∧ r.length < 256) :
    logRunIterate bs rs = some rs.reverse := by
  obtain ⟨s0, hnew, hwf0, hbs0⟩ := lmNew_wf bs h4 h31
  obtain ⟨s1, hfold, hwf1, hbs1⟩ := foldlM_lmAppend_wf rs s0 [] hwf0
    (by rw [hbs0]; exact hrec)
  rw [logRunIterate, logRun, hnew, Option.some_bind, hfold, Option.some_bind]
  exact lmIterateAll_wf s1 rs (by simpa using hwf1)

/-- Witness for C3 at a concrete input spanning three log blocks. -/
theorem log_append_iterate_roundtrip_witness :
    logRunIterate 16 [[1, 2, 3, 4], [5, 6, 7, 8], [9]] =
      some ([[1, 2, 3, 4], [5, 6, 7, 8], [9]] : List (List Nat)).reverse :=
  log_append_iterate_roundtrip 16 [[1, 2, 3, 4], [5, 6, 7, 8], [9]]
    (by norm_num) (by norm_num) (by decide)

set_option maxRecDepth 20000 in
/-- Counterexample to C3 as frozen: with block size 264, a single
256-byte record satisfies the claim's bound (256 ≤ 264 - 8), yet the
backwards iteration does not yield it — `set_bytes` stores the length
byte 256 mod 256 = 0, so the iterator reads a zero-length record and
then misparses the rest of the block. -/
theorem log_append_iterate_counterexample :
    ((252 :: List.replicate 255 (0 : Nat)).length : Int) ≤ (264 : Int) - 8 ∧
    logRunIterate 264 [252 :: List.replicate 255 (0 : Nat)] ≠
      some [252 :: List.replicate 255 (0 : Nat)] := by
  constructor
  · decide
  · decide

/-! ## Log records (src/tx/recovery) and the recovery walk

Decoded log records.  `create_log_record` (src/tx/recovery/logrecord.rs)
matches the opcode in the first four bytes against Checkpoint=0,
Start=1, Commit=2, Rollback=3 and SetInt=4 and falls through to `None`
for everything else — including opcode 5, so it never constructs a
`SetStringRecord` even though that type and its `undo` exist. -/

/-- Rust `BlockId`: (filename, block number). -/
structure BlockIdM where
  filename : List Nat
  number : Nat
  deriving DecidableEq

/-- The `as usize` cast of an `i32` (sign-extended, 64-bit). -/
def i32AsUsize (v : Int) : Nat :=
  (v.emod (2 ^ 64)).toNat

/-- The records `create_log_record` can produce. -/
inductive LogRec where
  | checkpoint
  | start (txnum : Int)
  | commit (txnum : Int)
  | rollback (txnum : Int)
  | setInt (txnum : Int) (blk : BlockIdM) (offset : Nat) (val : Int)
  deriving DecidableEq

/-- Rust `StartRecord::new`: `txnum = page.get_int(4)`. -/
def startRecordNew (p : List Nat) : Option LogRec :=
  (page_get_int p 4).map LogRec.start

/-- Rust `CommitRecord::new`. -/
def commitRecordNew (p : List Nat) : Option LogRec :=
  (page_get_int p 4).map LogRec.commit

/-- Rust `RollbackRecord::new`. -/
def rollbackRecordNew (p : List Nat) : Option LogRec :=
  (page_get_int p 4).map LogRec.rollback

/-- Rust `SetIntRecord::new`: filename at 8, then block number, offset
and old value at the offsets derived from the filename length. -/
def setIntRecordNew (p : List Nat) : Option LogRec := do
  let filename ← page_get_string p 8
  let blkpos := 8 + pageMaxLength filename.length
  let offsetpos := blkpos + 4
  let valpos := offsetpos + 4
  let t ← page_get_int p 4
  let bn ← page_get_int p blkpos
  let off ← page_get_int p offsetpos
  let v ← page_get_int p valpos
  pure (LogRec.setInt t ⟨filename, i32AsUsize bn⟩ (i32AsUsize off) v)

/-- Rust `create_log_record`: dispatch on the opcode at offset 0;
opcodes outside {0, 1, 2, 3, 4} — including SetString = 5 — fall
through to `None`. -/
def create_log_record (bytes : List Nat) : Option LogRec :=
  (page_get_int bytes 0).bind fun op =>
    if op = 0 then some LogRec.checkpoint
    else if op = 1 then startRecordNew bytes
    else if op = 2 then commitRecordNew bytes
    else if op = 3 then rollbackRecordNew bytes
    else if op = 4 then setIntRecordNew bytes
    else none

/-- Byte image built by Rust `CheckpointRecord::write_to_log` (before
the `lm.append` call): a 4-byte record holding opcode 0. -/
def checkpointRecordBytes : Option (List Nat) :=
  page_set_int (List.replicate 4 0) 0 0

/-- Byte image built by Rust `StartRecord::write_to_log`. -/
def startRecordBytes (txnum : Int) : Option (List Nat) := do
  let p1 ← page_set_int (List.replicate 8 0) 0 1
  page_set_int p1 4 txnum

/-- Byte image built by Rust `CommitRecord::write_to_log`. -/
def commitRecordBytes (txnum : Int) : Option (List Nat) := do
  let p1 ← page_set_int (List.replicate 8 0) 0 2
  page_set_int p1 4 txnum

/-- Byte image built by Rust `RollbackRecord::write_to_log`. -/
def rollbackRecordBytes (txnum : Int) : Option (List Nat) := do
  let p1 ← page_set_int (List.replicate 8 0) 0 3
  page_set_int p1 4 txnum

/-- Byte image built by Rust `SetIntRecord::write_to_log`: opcode 4,
txnum, length-prefixed filename, block number, offset, old value. -/
def setIntRecordBytes (txnum : Int) (blk : BlockIdM) (offset : Nat) (val : Int) :
    Option (List Nat) := do
  let tpos := 4
  let filepos := tpos + 4
  let blkpos := filepos + pageMaxLength blk.filename.length
  let offsetpos := blkpos + 4
  let valpos := offsetpos + 4
  let p1 ← page_set_int (List.replicate (valpos + 4) 0) 0 4
  let p2 ← page_set_int p1 tpos txnum
  let p3 ← page_set_string p2 filepos blk.filename
  let p4 ← page_set_int p3 blkpos (blk.number : Int)
  let p5 ← page_set_int p4 offsetpos (offset : Int)
  page_set_int p5 valpos val

/-- Byte image built by Rust `SetStringRecord::write_to_log`: opcode 5,
txnum, length-prefixed filename, block number, offset, old string. -/
def setStringRecordBytes (txnum : Int) (blk : BlockIdM) (offset : Nat)
    (val : List Nat) : Option (List Nat) := do
  let tpos := 4
  let filepos := tpos + 4
  let blkpos := filepos + pageMaxLength blk.filename.length
  let offsetpos := blkpos + 4
  let valpos := offsetpos + 4
  let reclen := valpos + pageMaxLength val.length
  let p1 ← page_set_int (List.replicate reclen 0) 0 5
  let p2 ← page_set_int p1 tpos txnum
  let p3 ← page_set_string p2 filepos blk.filename
  let p4 ← page_set_int p3 blkpos (blk.number : Int)
  let p5 ← page_set_int p4 offsetpos (offset : Int)
  page_set_string p5 valpos val

/-- Rust `Transaction::do_recover`, folded over the byte records the
backwards `LogMgr` iterator yields (newest first), returning the
sequence of pre-image writes performed.  `finished_txs` accumulates the
txnums of Commit and Rollback records (a `Vec::push`); a Checkpoint
record stops the walk; every other decoded record whose txnum is not in
`finished_txs` has `undo` invoked on it — a Start record's undo writes
nothing, a SetInt record's undo writes the recorded old value at the
recorded block and offset (with `log = false`); records the decoder
returns `None` for (in particular every SetString record) are
skipped. -/
def do_recover_writes : List Int → List (List Nat) → List (BlockIdM × Nat × Int)
  | _, [] => []
  | finished, rcd :: rest =>
    match create_log_record rcd with
    | none => do_recover_writes finished rest
    | some LogRec.checkpoint => []
    | some (LogRec.commit t) => do_recover_writes (finished ++ [t]) rest
    | some (LogRec.rollback t) => do_recover_writes (finished ++ [t]) rest
    | some (LogRec.start _) => do_recover_writes finished rest
    | some (LogRec.setInt t blk off v) =>
        if t ∈ finished then do_recover_writes finished rest
        else (blk, off, v) :: do_recover_writes finished rest

/-- CLAIM C2: `create_log_record` decodes opcodes 0..4 to the matching
record kind, but — contrary to the claim — returns `None` for opcode 5
(SetString), which lies inside the documented opcode set: evaluated on
the very byte images the six `write_to_log` functions build. -/
theorem create_log_record_eval :
    (checkpointRecordBytes.bind create_log_record = some LogRec.checkpoint) ∧
    ((startRecordBytes 7).bind create_log_record = some (LogRec.start 7)) ∧
    ((commitRecordBytes 7).bind create_log_record = some (LogRec.commit 7)) ∧
    ((rollbackRecordBytes 7).bind create_log_record = some (LogRec.rollback 7)) ∧
    ((setIntRecordBytes 7 ⟨[102], 1⟩ 2 42).bind create_log_record =
      some (LogRec.setInt 7 ⟨[102], 1⟩ 2 42)) ∧
    ((setStringRecordBytes 7 ⟨[102], 1⟩ 2 [65, 66]).bind
      (fun ss => page_get_int ss 0) = some 5) ∧
    ((setStringRecordBytes 7 ⟨[102], 1⟩ 2 [65, 66]).bind create_log_record = none) := by
  decide

/-- CLAIM C1: restart recovery evaluated on a log whose newest record is
the SetString record of the unfinished transaction 7 followed by the
SetInt record of the unfinished transaction 8: the SetInt pre-image is
restored, but the SetString record — opcode 5, txnum not in `finished` —
is skipped without any undo because `create_log_record` returns `None`
for it. -/
theorem do_recover_skips_setstring :
    ((setStringRecordBytes 7 ⟨[102], 1⟩ 0 [65, 66]).bind fun ss =>
      (setIntRecordBytes 8 ⟨[102], 2⟩ 4 9).map fun si =>
        (page_get_int ss 0, create_log_record ss,
          do_recover_writes [] [ss, si])) =
      some (some 5, none, [(⟨[102], 2⟩, 4, 9)]) := by
  decide

/-! ## Page claims -/

/-- CLAIM C6 (amended): on any `Page`, setting then getting at the same
offset returns the value written — for `i32` and `i64` values in range
and in-bounds offsets, for booleans, and for byte strings and strings of
length below 256 (the one-byte length prefix makes longer values fail
the round trip). -/
theorem page_roundtrips (p : List Nat) (o : Nat) (vi vl : Int) (vb : Bool)
    (bys ss : List Nat)
    (hi : o + 4 ≤ p.length) (hvi1 : -(2 ^ 31) ≤ vi) (hvi2 : vi < 2 ^ 31)
    (hl : o + 8 ≤ p.length) (hvl1 : -(2 ^ 63) ≤ vl) (hvl2 : vl < 2 ^ 63)
    (hb : o < p.length)
    (hby : o + 4 + bys.length ≤ p.length) (hby2 : bys.length < 256)
    (hs : o + 4 + ss.length ≤ p.length) (hs2 : ss.length < 256) :
    (page_set_int p o vi).bind (fun q => page_get_int q o) = some vi ∧
    (page_set_long p o vl).bind (fun q => page_get_long q o) = some vl ∧
    (page_set_bool p o vb).bind (fun q => page_get_bool q o) = some vb ∧
    (page_set_bytes p o bys).bind (fun q => page_get_bytes q o) = some bys ∧
    (page_set_string p o ss).bind (fun q => page_get_string q o) = some ss :=
  ⟨page_get_int_set_int p o vi hi hvi1 hvi2,
   page_get_long_set_long p o vl hl hvl1 hvl2,
   page_get_bool_set_bool p o vb hb,
   page_get_bytes_set_bytes p o bys hby hby2,
   page_get_bytes_set_bytes p o ss hs hs2⟩

/-- Witness for C6 on a concrete 20-byte page. -/
theorem page_roundtrips_witness :
    (page_set_int (List.replicate 20 0) 0 (-5)).bind
      (fun q => page_get_int q 0) = some (-5) ∧
    (page_set_long (List.replicate 20 0) 0 7).bind
      (fun q => page_get_long q 0) = some 7 ∧
    (page_set_bool (List.replicate 20 0) 0 true).bind
      (fun q => page_get_bool q 0) = some true ∧
    (page_set_bytes (List.replicate 20 0) 0 [1, 2]).bind
      (fun q => page_get_bytes q 0) = some [1, 2] ∧
    (page_set_string (List.replicate 20 0) 0 [65]).bind
      (fun q => page_get_string q 0) = some [65] :=
  page_roundtrips (List.replicate 20 0) 0 (-5) 7 true [1, 2] [65]
    (by decide) (by decide) (by decide) (by decide) (by decide) (by decide)
    (by decide) (by decide) (by decide) (by decide) (by decide)

set_option maxRecDepth 20000 in
/-- Counterexample to C6 as frozen: a 256-byte value fits a 264-byte
page (4 + 256 ≤ 264), yet `set_bytes` then `get_bytes` returns the
empty list, because the stored one-byte length is 256 mod 256 = 0. -/
theorem page_bytes_roundtrip_counterexample :
    0 + 4 + (List.replicate 256 (1 : Nat)).length ≤
      (List.replicate 264 (0 : Nat)).length ∧
    (page_set_bytes (List.replicate 264 0) 0 (List.replicate 256 1)).bind
      (fun q => page_get_bytes q 0) ≠ some (List.replicate 256 1) := by
  constructor
  · decide
  · decide

/-- The read side CLAIM C7 asserts: interpret the 4 bytes at `offset` as
a big-endian length, then return that many bytes from `offset + 4`.
This follows the claim's words, not the source. -/
def getBytesSpec4BE (p : List Nat) (o : Nat) : Option (List Nat) :=
  (page_get_int p o).bind fun len =>
    if o + 4 + len.toNat ≤ p.length then some ((p.drop (o + 4)).take len.toNat)
    else none

/-- Counterexample to C7 as frozen: on the page `[0, 0, 0, 1, 9]` the
4-byte big-endian length at offset 0 is 1, but `get_bytes` reads only
the single byte at the offset (0) and returns the empty list. -/
theorem page_get_bytes_not_4BE :
    page_get_bytes [0, 0, 0, 1, 9] 0 ≠ getBytesSpec4BE [0, 0, 0, 1, 9] 0 := by
  decide

/-- CLAIM C7 (amended): `Page::set_bytes` stores the low 8 bits of the
value's length as a single byte at the offset, and `Page::get_bytes`
reads the length back as that same single byte (not as a 4-byte
big-endian integer) before returning that many bytes from
`offset + 4`. -/
theorem page_length_prefix_format (p v : List Nat) (o : Nat)
    (hset : o + 4 + v.length ≤ p.length)
    (hget : o < p.length) (hget2 : o + 4 + p.getD o 0 ≤ p.length) :
    ((page_set_bytes p o v).bind (fun q => q[o]?) = some (v.length % 256)) ∧
    (page_get_bytes p o = some ((p.drop (o + 4)).take (p.getD o 0))) := by
  constructor
  · rw [page_set_bytes_eq p o v hset]
    show (_ ++ _ ++ _)[o]? = _
    rw [splice_getElem_lt (p.set o (v.length % 256)) v (o + 4) v.length o
      (by simp [List.length_set]; omega) (by omega)]
    exact List.getElem?_set_self (by omega)
  · have hpo : p[o]? = some (p.getD o 0) := by
      rw [List.getD_eq_getElem?_getD, List.getElem?_eq_getElem hget]
      rfl
    rw [page_get_bytes, hpo, Option.some_bind, if_pos hget2]

/-- Witness for C7 on a concrete page holding a stored length byte 2. -/
theorem page_length_prefix_format_witness :
    ((page_set_bytes [0, 0, 0, 2, 9, 9, 0, 0, 0, 0] 0 [5]).bind
      (fun q => q[0]?) = some (1 % 256)) ∧
    (page_get_bytes [0, 0, 0, 2, 9, 9, 0, 0, 0, 0] 0 =
      some ((([0, 0, 0, 2, 9, 9, 0, 0, 0, 0] : List Nat).drop (0 + 4)).take
        (([0, 0, 0, 2, 9, 9, 0, 0, 0, 0] : List Nat).getD 0 0))) :=
  page_length_prefix_format [0, 0, 0, 2, 9, 9, 0, 0, 0, 0] [5] 0
    (by decide) (by decide) (by decide)

/-! ## Association-list model of the Rust HashMaps -/

def lookupAssoc {α β : Type} [DecidableEq α] : List (α × β) → α → Option β
  | [], _ => none
  | (a, b) :: rest, k => if a = k then some b else lookupAssoc rest k

def insertAssoc {α β : Type} [DecidableEq α] : List (α × β) → α → β → List (α × β)
  | [], k, v => [(k, v)]
  | (a, b) :: rest, k, v =>
      if a = k then (k, v) :: rest else (a, b) :: insertAssoc rest k v

def removeAssoc {α β : Type} [DecidableEq α] : List (α × β) → α → List (α × β)
  | [], _ => []
  | (a, b) :: rest, k => if a = k then rest else (a, b) :: removeAssoc rest k

/-! ## Lock table (src/tx/concurrency/locktable.rs) and concurrency
manager (src/tx/concurrency/concurrencymgr.rs)

The lock table maps block ids to an `i32`: a positive count of shared
holders or the exclusive sentinel −1.  The park-timeout loops in `slock`
and `xlock` re-check a predicate no other step of a sequential run can
change (and never update `elapsed`), so in this embedding an
incompatible lock yields the timeout error directly, modelled as
`none`. -/

def ltHasXlock (locks : List (BlockIdM × Int)) (blk : BlockIdM) : Bool :=
  match lookupAssoc locks blk with
  | some v => v < 0
  | none => false

def ltHasOtherSlocks (locks : List (BlockIdM × Int)) (blk : BlockIdM) : Bool :=
  match lookupAssoc locks blk with
  | some v => v > 1
  | none => false

/-- Rust `LockTable::slock`: fail on an exclusive holder, else increment
the shared count (`locks.get(blk).unwrap_or(&0) + 1`). -/
def ltSlock (locks : List (BlockIdM × Int)) (blk : BlockIdM) :
    Option (List (BlockIdM × Int)) :=
  if ltHasXlock locks blk then none
  else some (insertAssoc locks blk ((lookupAssoc locks blk).getD 0 + 1))

/-- Rust `LockTable::xlock`: fail when other shared holders exist, else
store the exclusive sentinel −1. -/
def ltXlock (locks : List (BlockIdM × Int)) (blk : BlockIdM) :
    Option (List (BlockIdM × Int)) :=
  if ltHasOtherSlocks locks blk then none
  else some (insertAssoc locks blk (-1))

/-- Rust `LockTable::unlock`: decrement a shared count above 1, else
remove the entry. -/
def ltUnlock (locks : List (BlockIdM × Int)) (blk : BlockIdM) :
    List (BlockIdM × Int) :=
  let v := (lookupAssoc locks blk).getD 0
  if v > 1 then insertAssoc locks blk (v - 1) else removeAssoc locks blk

inductive LockTypeM where
  | slock
  | xlock
  deriving DecidableEq

/-- Rust `ConcurrencyMgr::has_xlock`. -/
def cmHasXlock (cl : List (BlockIdM × LockTypeM)) (blk : BlockIdM) : Bool :=
  match lookupAssoc cl blk with
  | some t => t = LockTypeM.xlock
  | none => false

/-- Rust `ConcurrencyMgr::slock`: skip when this transaction already
holds any lock on the block, else take a table slock (the `.unwrap()`
panics on timeout, hence `none`) and record SLock locally. -/
def cmSlock (tbl : List (BlockIdM × Int)) (cl : List (BlockIdM × LockTypeM))
    (blk : BlockIdM) : Option (List (BlockIdM × Int) × List (BlockIdM × LockTypeM)) :=
  if (lookupAssoc cl blk).isSome then some (tbl, cl)
  else (ltSlock tbl blk).map fun tbl2 => (tbl2, insertAssoc cl blk LockTypeM.slock)

/-- Rust `ConcurrencyMgr::xlock`: when no local XLock is recorded, take
a (shared) `slock` and record XLock locally; the `LockTable::xlock`
promotion call is commented out in the source (the TODO), so the table
is never told about the exclusive lock. -/
def cmXlock (tbl : List (BlockIdM × Int)) (cl : List (BlockIdM × LockTypeM))
    (blk : BlockIdM) : Option (List (BlockIdM × Int) × List (BlockIdM × LockTypeM)) :=
  if cmHasXlock cl blk then some (tbl, cl)
  else (cmSlock tbl cl blk).map fun tc => (tc.1, insertAssoc tc.2 blk LockTypeM.xlock)

/-- Rust `ConcurrencyMgr::release`: unlock every locally recorded block
on the table and clear the local map. -/
def cmRelease (tbl : List (BlockIdM × Int)) (cl : List (BlockIdM × LockTypeM)) :
    List (BlockIdM × Int) × List (BlockIdM × LockTypeM) :=
  (cl.foldl (fun t p => ltUnlock t p.1) tbl, [])

/-! ## Buffer (src/buffer/buffer.rs), buffer manager
(src/buffer/buffermgr.rs), buffer list (src/tx/bufferlist.rs) and the
transaction surface (src/tx/transaction.rs)

The data files are modelled as a map from block id to block contents;
`FileMgr::read` of a block that is not on disk is a short read of zero
bytes, leaving the page buffer unchanged. -/

def fmRead (disk : List (BlockIdM × List Nat)) (blk : BlockIdM) (buf : List Nat) :
    List Nat :=
  match lookupAssoc disk blk with
  | some content => content
  | none => buf

def fmWrite (disk : List (BlockIdM × List Nat)) (blk : BlockIdM) (page : List Nat) :
    List (BlockIdM × List Nat) :=
  insertAssoc disk blk page

/-- Rust `Buffer`: one page plus the resident block id, pin count, the
txnum of the last modifier and the LSN of the most recent log record for
that modification. -/
structure BufferM where
  contents : List Nat
  block : Option BlockIdM
  pins : Int
  txnum : Option Int
  lsn : Option Int
  deriving DecidableEq

/-- Rust `Buffer::set_modified`: always set `txnum`; update `lsn` only
when the passed LSN is non-negative. -/
def buffSetModified (b : BufferM) (txnum lsn : Int) : BufferM :=
  { b with txnum := some txnum, lsn := if lsn ≥ 0 then some lsn else b.lsn }

def buffIsPinned (b : BufferM) : Bool :=
  b.pins > 0

/-- Rust `Buffer::flush`: when dirty (`txnum` set), first force the log
through the stored LSN when there is one (none means no log flush),
then write the page to disk, then clear `txnum`. -/
def buffFlush (b : BufferM) (lm : LogMgr) (disk : List (BlockIdM × List Nat)) :
    BufferM × LogMgr × List (BlockIdM × List Nat) :=
  if b.txnum.isSome then
    let lm2 := match b.lsn with
      | none => lm
      | some l => lmFlushRecord lm l
    let disk2 := match b.block with
      | some blk => fmWrite disk blk b.contents
      | none => disk
    ({ b with txnum := none }, lm2, disk2)
  else (b, lm, disk)

/-- Rust `Buffer::assign_to_block`: flush, then read the new block into
the page and reset the pin count. -/
def buffAssignToBlock (b : BufferM) (lm : LogMgr)
    (disk : List (BlockIdM × List Nat)) (blk : BlockIdM) :
    BufferM × LogMgr × List (BlockIdM × List Nat) :=
  let fl := buffFlush b lm disk
  ({ fl.1 with
      block := some blk
      contents := fmRead fl.2.2 blk fl.1.contents
      pins := 0 }, fl.2.1, fl.2.2)

/-- Rust `BufferMgr` state plus the file and log managers it writes
through. -/
structure BmState where
  pool : List BufferM
  available : Nat
  lm : LogMgr
  disk : List (BlockIdM × List Nat)
  deriving DecidableEq

def dummyBuffer : BufferM :=
  ⟨[], none, 0, none, none⟩

/-- Rust `BufferMgr::find_existing_buffer`. -/
def bmFindExistingBuffer (pool : List BufferM) (blk : BlockIdM) : Option Nat :=
  pool.findIdx? (fun b => decide (b.block = some blk))

/-- Rust `BufferMgr::choose_unpinned_buffer`. -/
def bmChooseUnpinnedBuffer (pool : List BufferM) : Option Nat :=
  pool.findIdx? (fun b => ! buffIsPinned b)

/-- Rust `BufferMgr::try_pin`: reuse a buffer already holding the block,
else assign the first unpinned buffer, else `None`.  The indices
returned by `findIdx?` are always in range, so the `getD` default is
never read. -/
def bmTryPin (st : BmState) (blk : BlockIdM) : Option (BmState × Nat) :=
  match bmFindExistingBuffer st.pool blk with
  | some idx =>
    let b := st.pool.getD idx dummyBuffer
    let avail2 := if ¬ buffIsPinned b then st.available - 1 else st.available
    some ({ st with
        pool := st.pool.set idx { b with pins := b.pins + 1 }
        available := avail2 }, idx)
  | none =>
    match bmChooseUnpinnedBuffer st.pool with
    | some idx =>
      let b := st.pool.getD idx dummyBuffer
      let asg := buffAssignToBlock b st.lm st.disk blk
      let avail2 := if ¬ buffIsPinned asg.1 then st.available - 1 else st.available
      let b2 := { asg.1 with pins := asg.1.pins + 1 }
      some ({ st with
          pool := st.pool.set idx b2
          available := avail2
          lm := asg.2.1
          disk := asg.2.2 }, idx)
    | none => none

/-- Rust `BufferMgr::pin`: `try_pin`, then a park-timeout retry loop.
No other step of a sequential run unpins a buffer between retries, so
the loop never changes the outcome and a `None` from `try_pin` becomes
the timeout error `Err("Timeout while waiting for buffer to be
unpinned")`, modelled as `none`. -/
def bmPin (st : BmState) (blk : BlockIdM) : Option (BmState × Nat) :=
  bmTryPin st blk

/-- Rust `BufferList` inside a transaction: the blocks this transaction
has pinned and the pool slots they occupy. -/
structure BufferListM where
  buffers : List (BlockIdM × Nat)
  pins : List BlockIdM
  deriving DecidableEq

/-- Rust `BufferList::buffer`. -/
def bufferListBuffer (bl : BufferListM) (blk : BlockIdM) : Option Nat :=
  lookupAssoc bl.buffers blk

/-- Rust `BufferList::pin`: on `Ok(idx)` record the block; the `Err(_)`
arm is empty, so a timeout from `BufferMgr::pin` is discarded and the
state is returned unchanged. -/
def bufferListPin (bl : BufferListM) (st : BmState) (blk : BlockIdM) :
    BufferListM × BmState :=
  match bmPin st blk with
  | some (st2, idx) =>
      (⟨insertAssoc bl.buffers blk idx, bl.pins ++ [blk]⟩, st2)
  | none => (bl, st)

/-- A transaction together with the shared state it acts on. -/
structure TxM where
  txnum : Int
  buffers : BufferListM
  lockTbl : List (BlockIdM × Int)
  cmLocks : List (BlockIdM × LockTypeM)
  bm : BmState
  deriving DecidableEq

/-- Rust `Transaction::pin`: `self.buffers.pin(blk)`; the return type is
`()`, so no failure can reach the caller. -/
def txPin (s : TxM) (blk : BlockIdM) : TxM :=
  let r := bufferListPin s.buffers s.bm blk
  { s with buffers := r.1, bm := r.2 }

/-- Rust `RecoveryMgr::set_int`: read the old value from the buffer,
then append a SetInt pre-image record to the log, returning the LSN. -/
def rmSetInt (txn : Int) (lm : LogMgr) (buffer : BufferM) (offset : Nat) :
    Option (Int × LogMgr) := do
  let oldval ← page_get_int buffer.contents offset
  let block ← buffer.block
  let bytes ← setIntRecordBytes txn block offset oldval
  let lm2 ← lmAppend lm bytes
  pure (lm2.latestLsn, lm2)

/-- Rust `Transaction::set_int`: take an xlock, and when the block is in
this transaction's buffer list, optionally log the pre-image, mutate the
buffer and mark it modified; when the block is absent the match falls to
`_ => {}` and the call returns silently. -/
def txSetInt (s : TxM) (blk : BlockIdM) (offset : Nat) (val : Int) (log : Bool) :
    Option TxM := do
  let tc ← cmXlock s.lockTbl s.cmLocks blk
  match bufferListBuffer s.buffers blk with
  | some idx =>
    match s.bm.pool[idx]? with
    | none => none
    | some buffer => do
      let r ← if log then rmSetInt s.txnum s.bm.lm buffer offset
              else pure ((-1 : Int), s.bm.lm)
      let pg ← page_set_int buffer.contents offset val
      let b2 := buffSetModified { buffer with contents := pg } s.txnum r.1
      pure { s with
          lockTbl := tc.1
          cmLocks := tc.2
          bm := { s.bm with pool := s.bm.pool.set idx b2, lm := r.2 } }
  | none => pure { s with lockTbl := tc.1, cmLocks := tc.2 }

/-- Rust `Transaction::get_int`: take a shared lock; `None` when the
block is not pinned by this transaction, else the int at the offset. -/
def txGetInt (s : TxM) (blk : BlockIdM) (offset : Nat) :
    Option (TxM × Option Int) := do
  let tc ← cmSlock s.lockTbl s.cmLocks blk
  let s2 := { s with lockTbl := tc.1, cmLocks := tc.2 }
  match bufferListBuffer s.buffers blk with
  | some idx =>
    match s.bm.pool[idx]? with
    | none => none
    | some buffer => (page_get_int buffer.contents offset).map fun v => (s2, some v)
  | none => pure (s2, none)

/-! ## Claims on locking, pinning and the transaction surface -/

/-- A tiny concrete log manager (block size 8, fresh empty log) for use
in concrete states. -/
def dummyLm : LogMgr :=
  ⟨8, [[0, 0, 0, 8, 0, 0, 0, 0]], [0, 0, 0, 8, 0, 0, 0, 0], 0, 0, 0⟩

def blkA : BlockIdM :=
  ⟨[102], 0⟩

/-- A transaction that has pinned `blkA` into pool slot 0. -/
def c4Tx : TxM :=
  ⟨1, ⟨[(blkA, 0)], [blkA]⟩, [], [],
    ⟨[⟨List.replicate 8 0, some blkA, 1, none, none⟩], 0, dummyLm, []⟩⟩

/-- CLAIM C4: evaluated on a transaction whose `set_int(blkA, 0, 5, _)`
returns: the lock table maps `blkA` to 1 — a single shared lock, not the
exclusive sentinel −1 — because `ConcurrencyMgr::xlock` records XLock
only locally and the `LockTable::xlock` promotion is commented out; as a
consequence another transaction's `LockTable::slock` on `blkA` succeeds
(raising the count to 2) while the writer still holds its "exclusive"
lock. -/
theorem set_int_lock_not_exclusive :
    ((txSetInt c4Tx blkA 0 5 false).map fun s2 =>
      (lookupAssoc s2.lockTbl blkA,
       decide (lookupAssoc s2.cmLocks blkA = some LockTypeM.xlock))) =
      some (some 1, true) ∧
    ((txSetInt c4Tx blkA 0 5 false).bind fun s2 =>
      (ltSlock s2.lockTbl blkA).map fun t => lookupAssoc t blkA) =
      some (some 2) := by
  constructor
  · decide
  · decide

/-- CLAIM C5: evaluated on a buffer manager with no available buffer:
`BufferMgr::pin` reports the timeout error, but `BufferList::pin`
swallows it (`Err(_) => {}`) and returns with the state unchanged, and
`Transaction::pin` returns `()` — the caller cannot observe the
failure. -/
theorem buffer_pin_timeout_discarded :
    bmPin ⟨[], 0, dummyLm, []⟩ blkA = none ∧
    bufferListPin ⟨[], []⟩ ⟨[], 0, dummyLm, []⟩ blkA =
      (⟨[], []⟩, ⟨[], 0, dummyLm, []⟩) ∧
    txPin ⟨1, ⟨[], []⟩, [], [], ⟨[], 0, dummyLm, []⟩⟩ blkA =
      ⟨1, ⟨[], []⟩, [], [], ⟨[], 0, dummyLm, []⟩⟩ := by
  refine ⟨rfl, rfl, rfl⟩

/-- CLAIM C9: `Buffer::set_modified` with a negative LSN (the
`log = false` path of `set_int`/`set_string`) sets the buffer's `txnum`
but leaves the stored LSN unchanged; a later `Buffer::flush` of the now
dirty buffer still forces the log through the stored LSN when one was
ever recorded (`lmFlushRecord`), performs no log flush at all when the
LSN was never set, and in both cases writes the page to disk. -/
theorem set_modified_negative_lsn (b : BufferM) (txn l : Int) (hl : l < 0)
    (lm : LogMgr) (disk : List (BlockIdM × List Nat)) :
    (buffSetModified b txn l).txnum = some txn ∧
    (buffSetModified b txn l).lsn = b.lsn ∧
    (buffFlush (buffSetModified b txn l) lm disk).2.1 =
      (match b.lsn with
        | some L => lmFlushRecord lm L
        | none => lm) ∧
    (buffFlush (buffSetModified b txn l) lm disk).2.2 =
      (match b.block with
        | some blk => fmWrite disk blk b.contents
        | none => disk) := by
  have hneg : ¬ l ≥ 0 := by omega
  refine ⟨by simp [buffSetModified], by simp [buffSetModified, hneg], ?_, ?_⟩
  · simp only [buffFlush, buffSetModified, hneg, if_false]
    cases b.lsn <;> simp
  · simp only [buffFlush, buffSetModified, hneg, if_false]
    cases b.block <;> simp

/-- Witness for C9: a dirty buffer holding LSN 3 on block `blkA`. -/
theorem set_modified_negative_lsn_witness :
    (buffSetModified ⟨[1, 2, 3, 4], some blkA, 1, none, some 3⟩ 2 (-1)).txnum =
      some 2 ∧
    (buffSetModified ⟨[1, 2, 3, 4], some blkA, 1, none, some 3⟩ 2 (-1)).lsn =
      (⟨[1, 2, 3, 4], some blkA, 1, none, some 3⟩ : BufferM).lsn ∧
    (buffFlush (buffSetModified ⟨[1, 2, 3, 4], some blkA, 1, none, some 3⟩ 2 (-1))
        dummyLm []).2.1 =
      (match (⟨[1, 2, 3, 4], some blkA, 1, none, some 3⟩ : BufferM).lsn with
        | some L => lmFlushRecord dummyLm L
        | none => dummyLm) ∧
    (buffFlush (buffSetModified ⟨[1, 2, 3, 4], some blkA, 1, none, some 3⟩ 2 (-1))
        dummyLm []).2.2 =
      (match (⟨[1, 2, 3, 4], some blkA, 1, none, some 3⟩ : BufferM).block with
        | some blk => fmWrite [] blk (⟨[1, 2, 3, 4], some blkA, 1, none, some 3⟩ : BufferM).contents
        | none => []) :=
  set_modified_negative_lsn ⟨[1, 2, 3, 4], some blkA, 1, none, some 3⟩ 2 (-1)
    (by decide) dummyLm []

/-- CLAIM C10: for a block that is not in the transaction's buffer list,
`set_int` returns silently with every buffer and the log unchanged (only
the lock state moves), and `get_int` returns `None`. -/
theorem tx_unpinned_block_noop (s : TxM) (blk : BlockIdM) (off : Nat) (v : Int)
    (lg : Bool)
    (tc1 tc2 : List (BlockIdM × Int) × List (BlockIdM × LockTypeM))
    (hb : bufferListBuffer s.buffers blk = none)
    (hx : cmXlock s.lockTbl s.cmLocks blk = some tc1)
    (hs : cmSlock s.lockTbl s.cmLocks blk = some tc2) :
    txSetInt s blk off v lg = some { s with lockTbl := tc1.1, cmLocks := tc1.2 } ∧
    ((txSetInt s blk off v lg).map (fun s2 => s2.bm) = some s.bm) ∧
    txGetInt s blk off = some ({ s with lockTbl := tc2.1, cmLocks := tc2.2 }, none) := by
  have h1 : txSetInt s blk off v lg = some { s with lockTbl := tc1.1, cmLocks := tc1.2 } := by
    rw [txSetInt, hx]
    simp only [Option.bind_eq_bind, Option.some_bind, hb]
    rfl
  refine ⟨h1, by rw [h1]; rfl, ?_⟩
  rw [txGetInt, hs]
  simp only [Option.bind_eq_bind, Option.some_bind, hb]
  rfl

/-- Witness for C10: a transaction with an empty buffer list and free
locks. -/
theorem tx_unpinned_block_noop_witness :
    txSetInt ⟨1, ⟨[], []⟩, [], [], ⟨[], 0, dummyLm, []⟩⟩ blkA 0 5 true =
      some { (⟨1, ⟨[], []⟩, [], [], ⟨[], 0, dummyLm, []⟩⟩ : TxM) with
        lockTbl := [(blkA, 1)]
        cmLocks := [(blkA, LockTypeM.xlock)] } ∧
    ((txSetInt ⟨1, ⟨[], []⟩, [], [], ⟨[], 0, dummyLm, []⟩⟩ blkA 0 5 true).map
      (fun s2 => s2.bm) = some (⟨1, ⟨[], []⟩, [], [], ⟨[], 0, dummyLm, []⟩⟩ : TxM).bm) ∧
    txGetInt ⟨1, ⟨[], []⟩, [], [], ⟨[], 0, dummyLm, []⟩⟩ blkA 0 =
      some ({ (⟨1, ⟨[], []⟩, [], [], ⟨[], 0, dummyLm, []⟩⟩ : TxM) with
        lockTbl := [(blkA, 1)]
        cmLocks := [(blkA, LockTypeM.slock)] }, none) :=
  tx_unpinned_block_noop ⟨1, ⟨[], []⟩, [], [], ⟨[], 0, dummyLm, []⟩⟩ blkA 0 5 true
    ([(blkA, 1)], [(blkA, LockTypeM.xlock)])
    ([(blkA, 1)], [(blkA, LockTypeM.slock)])
    (by decide) (by decide) (by decide)

/-! ## Schema (src/record/schema.rs) and Layout (src/record/layout.rs) -/

/-- Rust `Schema`: the ordered field names plus a map from name to
(ftype, length).  The info map is an association list where the newest
insertion shadows older ones, like `HashMap::insert`. -/
structure SchemaM where
  fields : List String
  info : List (String × Int × Int)
  deriving DecidableEq

def schemaNew : SchemaM :=
  ⟨[], []⟩

/-- Rust `Schema::add_field`. -/
def schemaAddField (s : SchemaM) (f : String) (ft len : Int) : SchemaM :=
  ⟨s.fields ++ [f], (f, ft, len) :: s.info⟩

/-- A schema built by `add_field` over a list of (name, ftype, length)
triples. -/
def schemaOfList (L : List (String × Int × Int)) : SchemaM :=
  L.foldl (fun s t => schemaAddField s t.1 t.2.1 t.2.2) schemaNew

/-- The `as i32` cast of a `usize`. -/
def usizeAsI32 (n : Nat) : Int :=
  let m : Nat := n % 2 ^ 32
  if m < 2 ^ 31 then (m : Int) else (m : Int) - 2 ^ 32

/-- Two's-complement wrap of an integer to the `i32` range, the release
semantics of an overflowing `i32` addition. -/
def i32Wrap (n : Int) : Int :=
  (n + 2 ^ 31).emod (2 ^ 32) - 2 ^ 31

/-- The loop of Rust `Layout::new`: for each field in schema order,
record `offsets[field] = pos` and advance `pos` by the field's length in
bytes — 4 for type 4 (INTEGER), `Page::max_length(length as usize) as
i32` for type 12 (VARCHAR); any other type panics.  `pos` is an `i32`,
so the addition `pos += length_in_bytes` wraps. -/
def layoutGo (s : SchemaM) : Int → List String → Option (List (String × Int) × Int)
  | pos, [] => some ([], pos)
  | pos, f :: rest =>
    (lookupAssoc s.info f).bind fun fi =>
      (if fi.1 = 4 then some (4 : Int)
       else if fi.1 = 12 then some (usizeAsI32 (pageMaxLength (i32AsUsize fi.2)))
       else none).bind fun sz =>
      (layoutGo s (i32Wrap (pos + sz)) rest).map fun pr => ((f, pos) :: pr.1, pr.2)

/-- Rust `Layout::new`: `pos` starts at 4 (the slot flag); the final
`pos` is `slot_size`.  Returns the offsets map and the slot size. -/
def layoutNew (s : SchemaM) : Option (List (String × Int) × Int) :=
  layoutGo s 4 s.fields

/-- The byte size the specification assigns to a field: 4 for INTEGER,
`4 + L` for VARCHAR(L). -/
def sizeOfField (t : String × Int × Int) : Int :=
  if t.2.1 = 4 then 4 else 4 + t.2.2

/-- The expected offsets list: each field at the running position. -/
def offsListOf : Int → List (String × Int × Int) → List (String × Int)
  | _, [] => []
  | pos, t :: rest => (t.1, pos) :: offsListOf (pos + sizeOfField t) rest

def sumSizes (L : List (String × Int × Int)) : Int :=
  (L.map sizeOfField).sum

/-- A field the claim admits: INTEGER, or VARCHAR with a length that is
non-negative and small enough not to wrap the casts. -/
def validField (t : String × Int × Int) : Prop :=
  t.2.1 = 4 ∨ (t.2.1 = 12 ∧ 0 ≤ t.2.2 ∧ t.2.2 + 4 < 2 ^ 31)

theorem lookupAssoc_eq_none_of_not_mem {α β : Type} [DecidableEq α]
    (l : List (α × β)) (k : α) (h : k ∉ l.map Prod.fst) :
    lookupAssoc l k = none := by
  induction l with
  | nil => rfl
  | cons a rest ih =>
    simp only [List.map_cons, List.mem_cons] at h
    push_neg at h
    rw [lookupAssoc, if_neg (fun he => h.1 he.symm)]
    exact ih h.2

theorem lookupAssoc_append {α β : Type} [DecidableEq α]
    (l1 l2 : List (α × β)) (k : α) :
    lookupAssoc (l1 ++ l2) k =
      match lookupAssoc l1 k with
      | some v => some v
      | none => lookupAssoc l2 k := by
  induction l1 with
  | nil => rfl
  | cons a rest ih =>
    by_cases hk : a.1 = k
    · simp only [List.cons_append, lookupAssoc, if_pos hk]
    · simp only [List.cons_append, lookupAssoc, if_neg hk]
      exact ih

theorem lookupAssoc_reverse_nodup {α β : Type} [DecidableEq α]
    (l : List (α × β)) (h : (l.map Prod.fst).Nodup) (k : α) :
    lookupAssoc l.reverse k = lookupAssoc l k := by
  induction l with
  | nil => rfl
  | cons a rest ih =>
    simp only [List.map_cons, List.nodup_cons] at h
    rw [List.reverse_cons, lookupAssoc_append]
    rw [ih h.2]
    by_cases hk : a.1 = k
    · have hnone : lookupAssoc rest k = none := by
        apply lookupAssoc_eq_none_of_not_mem
        rw [← hk]
        exact h.1
      rw [hnone]
      simp [lookupAssoc, hk]
    · cases hr : lookupAssoc rest k <;> simp [lookupAssoc, hk, hr]

theorem lookupAssoc_of_mem_nodup {α β : Type} [DecidableEq α]
    (l : List (α × β)) (h : (l.map Prod.fst).Nodup) (t : α × β) (ht : t ∈ l) :
    lookupAssoc l t.1 = some t.2 := by
  induction l with
  | nil => cases ht
  | cons a rest ih =>
    simp only [List.map_cons, List.nodup_cons] at h
    rcases List.mem_cons.mp ht with he | hm
    · subst he
      rw [lookupAssoc, if_pos rfl]
    · have hne : a.1 ≠ t.1 := by
        intro he
        apply h.1
        rw [he]
        exact List.mem_map_of_mem Prod.fst hm
      rw [lookupAssoc, if_neg hne]
      exact ih h.2 hm

theorem schemaOfList_foldl (L : List (String × Int × Int)) :
    ∀ s0 : SchemaM,
      L.foldl (fun s t => schemaAddField s t.1 t.2.1 t.2.2) s0 =
        ⟨s0.fields ++ L.map Prod.fst, L.reverse ++ s0.info⟩ := by
  induction L with
  | nil => intro s0; simp
  | cons t rest ih =>
    intro s0
    rw [List.foldl_cons, ih]
    simp [schemaAddField, List.reverse_cons]

theorem schemaOfList_fields (L : List (String × Int × Int)) :
    (schemaOfList L).fields = L.map Prod.fst := by
  rw [schemaOfList, schemaOfList_foldl]
  simp [schemaNew]

theorem schemaOfList_info (L : List (String × Int × Int)) :
    (schemaOfList L).info = L.reverse := by
  rw [schemaOfList, schemaOfList_foldl]
  simp [schemaNew]

theorem size_code_eq (t : String × Int × Int) (ht : validField t) :
    (if t.2.1 = 4 then some (4 : Int)
     else if t.2.1 = 12 then some (usizeAsI32 (pageMaxLength (i32AsUsize t.2.2)))
     else none) = some (sizeOfField t) := by
  rcases ht with h4 | ⟨h12, hge, hlt⟩
  · rw [if_pos h4, sizeOfField, if_pos h4]
  · have hne : t.2.1 ≠ 4 := by omega
    rw [if_neg hne, if_pos h12, sizeOfField, if_neg hne]
    have husz : i32AsUsize t.2.2 = t.2.2.toNat := by
      rw [i32AsUsize]
      have : t.2.2.emod (2 ^ 64) = t.2.2 := by
        apply Int.emod_eq_of_lt hge
        have : (2 : Int) ^ 31 ≤ 2 ^ 64 := by norm_num
        omega
      rw [this]
    rw [husz, pageMaxLength, usizeAsI32]
    have hsmall : (4 + t.2.2.toNat * 1) % 2 ^ 32 = 4 + t.2.2.toNat * 1 := by
      apply Nat.mod_eq_of_lt
      have : (2 : Nat) ^ 31 < 2 ^ 32 := by norm_num
      omega
    rw [hsmall]
    rw [if_pos (by omega)]
    congr 1
    omega

theorem sumSizes_cons (t : String × Int × Int) (l : List (String × Int × Int)) :
    sumSizes (t :: l) = sizeOfField t + sumSizes l := by
  simp [sumSizes]

theorem i32Wrap_eq_self (n : Int) (h1 : -2 ^ 31 ≤ n) (h2 : n < 2 ^ 31) :
    i32Wrap n = n := by
  rw [i32Wrap]
  have h : (n + 2 ^ 31).emod (2 ^ 32) = n + 2 ^ 31 := by
    apply Int.emod_eq_of_lt (by omega) (by omega)
  rw [h]
  ring

theorem sizeOfField_nonneg (t : String × Int × Int) (ht : validField t) :
    0 ≤ sizeOfField t := by
  rcases ht with h4 | ⟨h12, hge, _⟩
  · rw [sizeOfField, if_pos h4]
    omega
  · rw [sizeOfField, if_neg (by omega)]
    omega

theorem sumSizes_nonneg (L : List (String × Int × Int))
    (h : ∀ t ∈ L, validField t) : 0 ≤ sumSizes L := by
  induction L with
  | nil => simp [sumSizes]
  | cons t rest ih =>
    rw [sumSizes_cons]
    have h1 := sizeOfField_nonneg t (h t (List.mem_cons_self t rest))
    have h2 := ih (fun x hx => h x (List.mem_cons_of_mem t hx))
    omega

theorem layoutGo_spec (L : List (String × Int × Int)) :
    ∀ (s : SchemaM) (pos : Int),
      (∀ t ∈ L, lookupAssoc s.info t.1 = some t.2) →
      (∀ t ∈ L, validField t) →
      0 ≤ pos →
      pos + sumSizes L < 2 ^ 31 →
      layoutGo s pos (L.map Prod.fst) = some (offsListOf pos L, pos + sumSizes L) := by
  induction L with
  | nil =>
    intro s pos _ _ _ _
    simp [layoutGo, offsListOf, sumSizes]
  | cons t rest ih =>
    intro s pos hlook hval hpos hbound
    have hszn := sizeOfField_nonneg t (hval t (List.mem_cons_self t rest))
    have hrestn := sumSizes_nonneg rest (fun x hx => hval x (List.mem_cons_of_mem t hx))
    have hcons : sumSizes (t :: rest) = sizeOfField t + sumSizes rest :=
      sumSizes_cons t rest
    have hw : i32Wrap (pos + sizeOfField t) = pos + sizeOfField t := by
      apply i32Wrap_eq_self
      · omega
      · rw [hcons] at hbound
        omega
    rw [List.map_cons, layoutGo, hlook t (List.mem_cons_self t rest), Option.some_bind,
      size_code_eq t (hval t (List.mem_cons_self t rest)), Option.some_bind, hw,
      ih s (pos + sizeOfField t) (fun x hx => hlook x (List.mem_cons_of_mem t hx))
        (fun x hx => hval x (List.mem_cons_of_mem t hx))
        (by omega) (by rw [hcons] at hbound; omega)]
    rw [Option.map_some']
    rw [offsListOf]
    have : pos + sizeOfField t + sumSizes rest = pos + sumSizes (t :: rest) := by
      rw [sumSizes, sumSizes, List.map_cons, List.sum_cons]
      ring
    rw [this]

theorem lookupAssoc_offsListOf (L : List (String × Int × Int))
    (hnd : (L.map Prod.fst).Nodup) :
    ∀ (pos : Int) (i : Nat) (hi : i < L.length),
      lookupAssoc (offsListOf pos L) (L.get ⟨i, hi⟩).1 =
        some (pos + sumSizes (L.take i)) := by
  induction L with
  | nil =>
    intro pos i hi
    cases hi
  | cons t rest ih =>
    intro pos i hi
    simp only [List.map_cons, List.nodup_cons] at hnd
    cases i with
    | zero =>
      rw [offsListOf, lookupAssoc]
      simp [sumSizes]
    | succ j =>
      have hget : (t :: rest).get ⟨j + 1, hi⟩ = rest.get ⟨j, by simpa using hi⟩ := rfl
      rw [hget, offsListOf, lookupAssoc]
      have hne : t.1 ≠ (rest.get ⟨j, by simpa using hi⟩).1 := by
        intro he
        apply hnd.1
        rw [he]
        exact List.mem_map_of_mem Prod.fst (List.get_mem rest j (by simpa using hi))
      rw [if_neg hne, ih hnd.2 (pos + sizeOfField t) j (by simpa using hi)]
      have : pos + sizeOfField t + sumSizes (rest.take j) =
          pos + sumSizes ((t :: rest).take (j + 1)) := by
        rw [List.take_succ_cons, sumSizes, sumSizes, List.map_cons, List.sum_cons]
        ring
      rw [this]

theorem sumSizes_take_succ (L : List (String × Int × Int)) :
    ∀ (i : Nat) (hi : i < L.length),
      sumSizes (L.take (i + 1)) =
        sumSizes (L.take i) + sizeOfField (L.get ⟨i, hi⟩) := by
  induction L with
  | nil =>
    intro i hi
    cases hi
  | cons t rest ih =>
    intro i hi
    cases i with
    | zero => simp [sumSizes]
    | succ j =>
      have hg : (t :: rest).get ⟨j + 1, hi⟩ = rest.get ⟨j, by simpa using hi⟩ := rfl
      rw [hg, List.take_succ_cons, List.take_succ_cons, sumSizes_cons, sumSizes_cons,
        ih j (by simpa using hi)]
      ring

/-- CLAIM C8 (corrected): for every schema with distinct field names,
field types INTEGER (4 bytes) or VARCHAR(L) (4 + L bytes, L ≥ 0 and
small enough for the i32 casts), whose slot size 4 + Σ size_of(Fᵢ) fits
in an i32 (without this bound the running `pos: i32` wraps, see the
counterexample), `Layout::new` places the first field at offset 4, each
next field exactly `size_of` the previous one later, and `slot_size` is
the last field's offset plus its size. -/
theorem layout_offsets (L : List (String × Int × Int))
    (hnd : (L.map Prod.fst).Nodup)
    (hty : ∀ t ∈ L, validField t)
    (hsz : 4 + sumSizes L < 2 ^ 31) :
    ∃ offs slot,
      layoutNew (schemaOfList L) = some (offs, slot) ∧
      (∀ h0 : 0 < L.length, lookupAssoc offs (L.get ⟨0, h0⟩).1 = some 4) ∧
      (∀ (i : Nat) (hi : i + 1 < L.length),
        ∃ oi oj, lookupAssoc offs (L.get ⟨i, by omega⟩).1 = some oi ∧
          lookupAssoc offs (L.get ⟨i + 1, hi⟩).1 = some oj ∧
          oj - oi = sizeOfField (L.get ⟨i, by omega⟩)) ∧
      (∀ h0 : 0 < L.length,
        ∃ om, lookupAssoc offs (L.get ⟨L.length - 1, by omega⟩).1 = some om ∧
          slot = om + sizeOfField (L.get ⟨L.length - 1, by omega⟩)) := by
  have hlookups : ∀ t ∈ L, lookupAssoc (schemaOfList L).info t.1 = some t.2 := by
    intro t ht
    rw [schemaOfList_info, lookupAssoc_reverse_nodup L hnd]
    exact lookupAssoc_of_mem_nodup L hnd t ht
  have hgo := layoutGo_spec L (schemaOfList L) 4 hlookups hty (by omega) hsz
  refine ⟨offsListOf 4 L, 4 + sumSizes L, ?_, ?_, ?_, ?_⟩
  · rw [layoutNew, schemaOfList_fields]
    exact hgo
  · intro h0
    have h := lookupAssoc_offsListOf L hnd 4 0 h0
    simpa [sumSizes] using h
  · intro i hi
    refine ⟨4 + sumSizes (L.take i), 4 + sumSizes (L.take (i + 1)),
      lookupAssoc_offsListOf L hnd 4 i (by omega),
      lookupAssoc_offsListOf L hnd 4 (i + 1) hi, ?_⟩
    rw [sumSizes_take_succ L i (by omega)]
    ring
  · intro h0
    refine ⟨4 + sumSizes (L.take (L.length - 1)),
      lookupAssoc_offsListOf L hnd 4 (L.length - 1) (by omega), ?_⟩
    have hfull : L.take (L.length - 1 + 1) = L := by
      rw [show L.length - 1 + 1 = L.length by omega]
      simp
    have h := sumSizes_take_succ L (L.length - 1) (by omega)
    rw [hfull] at h
    rw [h]
    ring

/-- Witness for C8 on the schema of the layout.rs test: an int field A,
a VARCHAR(9) field B, an int field C — offsets 4, 8, 21 and slot size
25. -/
theorem layout_offsets_witness :
    ∃ offs slot,
      layoutNew (schemaOfList [("A", 4, 0), ("B", 12, 9), ("C", 4, 0)]) =
        some (offs, slot) ∧
      (∀ h0 : 0 < ([("A", 4, 0), ("B", 12, 9), ("C", 4, 0)] :
          List (String × Int × Int)).length,
        lookupAssoc offs (([("A", 4, 0), ("B", 12, 9), ("C", 4, 0)] :
          List (String × Int × Int)).get ⟨0, h0⟩).1 = some 4) ∧
      (∀ (i : Nat) (hi : i + 1 < ([("A", 4, 0), ("B", 12, 9), ("C", 4, 0)] :
          List (String × Int × Int)).length),
        ∃ oi oj, lookupAssoc offs (([("A", 4, 0), ("B", 12, 9), ("C", 4, 0)] :
            List (String × Int × Int)).get ⟨i, by omega⟩).1 = some oi ∧
          lookupAssoc offs (([("A", 4, 0), ("B", 12, 9), ("C", 4, 0)] :
            List (String × Int × Int)).get ⟨i + 1, hi⟩).1 = some oj ∧
          oj - oi = sizeOfField (([("A", 4, 0), ("B", 12, 9), ("C", 4, 0)] :
            List (String × Int × Int)).get ⟨i, by omega⟩)) ∧
      (∀ h0 : 0 < ([("A", 4, 0), ("B", 12, 9), ("C", 4, 0)] :
          List (String × Int × Int)).length,
        ∃ om, lookupAssoc offs (([("A", 4, 0), ("B", 12, 9), ("C", 4, 0)] :
            List (String × Int × Int)).get
              ⟨([("A", 4, 0), ("B", 12, 9), ("C", 4, 0)] :
                List (String × Int × Int)).length - 1, by omega⟩).1 = some om ∧
          slot = om + sizeOfField (([("A", 4, 0), ("B", 12, 9), ("C", 4, 0)] :
            List (String × Int × Int)).get
              ⟨([("A", 4, 0), ("B", 12, 9), ("C", 4, 0)] :
                List (String × Int × Int)).length - 1, by omega⟩)) :=
  layout_offsets [("A", 4, 0), ("B", 12, 9), ("C", 4, 0)] (by decide)
    (by norm_num [validField]) (by decide)

/-- Counterexample to the original C8: a schema of two VARCHAR(2^31 − 5)
fields — each field admitted by the claim, each field size representable
in i32 — makes the `pos: i32` accumulator of `Layout::new` wrap between
the first and the second field, so the second offset is the negative
wrapped value −2147483645 and the offset difference is not the first
field's size (in a debug build the overflowing addition panics
instead). -/
theorem layout_offsets_counterexample :
    (∀ t ∈ ([("A", 12, 2 ^ 31 - 5), ("B", 12, 2 ^ 31 - 5)] :
        List (String × Int × Int)), validField t) ∧
    (([("A", 12, 2 ^ 31 - 5), ("B", 12, 2 ^ 31 - 5)].map
        (Prod.fst (β := Int × Int))).Nodup) ∧
    ((layoutNew (schemaOfList [("A", 12, 2 ^ 31 - 5), ("B", 12, 2 ^ 31 - 5)])).map
        fun r => (lookupAssoc r.1 "A", lookupAssoc r.1 "B")) =
      some (some 4, some (-2147483645)) ∧
    ¬ ((-2147483645 : Int) - 4 = sizeOfField ("A", 12, 2 ^ 31 - 5)) := by
  refine ⟨by norm_num [validField], by decide, ?_, by decide⟩
  decide
